import Mathlib

/-!
Verification development for the memory-management core of the
cmu15445-2023fall repository: the copy-on-write trie (`src/primer/trie.cpp`),
the LRU-K replacer (`src/buffer/lru_k_replacer.cpp`) and the buffer pool
manager (`src/buffer/buffer_pool_manager.cpp`).

Every definition in this file is a shallow embedding translated from the
C++ source.  `std::map<char, std::shared_ptr<TrieNode>>` children maps are
represented as key-sorted association lists (the canonical representation
of a `std::map`); machine integers are `Nat`/`Int`; pointers become values
of the embedded types; fallible paths (C++ `throw`) return an explicit
error component.
-/

namespace BusTub

/-! ### Association-list primitives shared by the embeddings

`findA` is `std::map::find` / first-match lookup, `insOrd` is
`std::map::insert_or_assign` on the sorted-list representation (replace in
place when the key is present, insert at the sorted position when absent),
`eraseA` is `std::map::erase` (removes the unique binding of the key, here
the first occurrence). -/

def findA {β : Type} (c : Nat) : List (Nat × β) → Option β
  | [] => none
  | (c', v) :: rest => if c = c' then some v else findA c rest

def insOrd {β : Type} (c : Nat) (v : β) : List (Nat × β) → List (Nat × β)
  | [] => [(c, v)]
  | (c', v') :: rest =>
      if c = c' then (c, v) :: rest
      else if c < c' then (c, v) :: (c', v') :: rest
      else (c', v') :: insOrd c v rest

def eraseA {β : Type} (c : Nat) : List (Nat × β) → List (Nat × β)
  | [] => []
  | (c', v') :: rest => if c = c' then rest else (c', v') :: eraseA c rest

/-- The keys of an association list are pairwise increasing left to right
(the `std::map` sorted, duplicate-free representation invariant). -/
def sortedKeys {β : Type} (l : List (Nat × β)) : Bool :=
  decide (l.Pairwise fun p q => p.1 < q.1)

/-! ### The copy-on-write trie (`src/primer/trie.cpp`)

A `TrieNode` holds a children map from single-byte edge labels to child
nodes and, for `TrieNodeWithValue`, a value (`is_value_node_` is
`value.isSome`).  The value payload is embedded at a single value type
`Nat`; the `dynamic_cast` type dispatch of `Get<T>` is orthogonal to the
claims and always succeeds at the matching type. -/

inductive TrieNode : Type where
  | mk : List (Nat × TrieNode) → Option Nat → TrieNode

instance : Inhabited TrieNode := ⟨TrieNode.mk [] none⟩

def TrieNode.children : TrieNode → List (Nat × TrieNode)
  | .mk cs _ => cs

def TrieNode.value : TrieNode → Option Nat
  | .mk _ v => v

/-- Field `is_value_node_`: true exactly on `TrieNodeWithValue`. -/
def TrieNode.isValueNode (n : TrieNode) : Bool := n.value.isSome

theorem TrieNode.eta (n : TrieNode) : TrieNode.mk n.children n.value = n := by
  cases n
  rfl

/-- A `Trie` is a (possibly null) shared pointer to its root. -/
structure Trie : Type where
  root : Option TrieNode

def Trie.empty : Trie := ⟨none⟩

/-- Keys are byte strings; every public operation strips one trailing null
byte before use, as in the C++ (`if (!key.empty() && key.back() == 0)`). -/
def stripKey (key : List Nat) : List Nat :=
  match key.getLast? with
  | some 0 => key.dropLast
  | _ => key

/-- Helper of `Trie::FindPath`: walk from `n` along `key`, collecting the
child reached for each consumed byte, stopping at the first absent child. -/
def findPathFrom (n : TrieNode) : List Nat → List TrieNode
  | [] => []
  | c :: cs =>
      match findA c n.children with
      | some child => child :: findPathFrom child cs
      | none => []

/-- `Trie::FindPath`: the root (when non-null) followed by the nodes along
`key`, as far as they exist. -/
def Trie.FindPath (t : Trie) (key : List Nat) : List TrieNode :=
  match t.root with
  | none => []
  | some r => r :: findPathFrom r key

/-- Body of `Trie::Get<T>` after key stripping: follow the whole key and
return the terminal node's value (null when the path is incomplete or the
terminal is not a value node). -/
def getViaPath (r : Option TrieNode) (key : List Nat) : Option Nat :=
  let path := Trie.FindPath ⟨r⟩ key
  if path.length = key.length + 1 then (path.getLastD default).value else none

/-- `Trie::Get<T>`. -/
def Trie.Get (t : Trie) (key0 : List Nat) : Option Nat :=
  getViaPath t.root (stripKey key0)

/-- The linking loop shared by `Trie::Put` and `Trie::Remove`:
`new_nodes[index-1]->children_.insert_or_assign(key[index-1], new_nodes[index])`
for `index` from the back down to `1`; the result is `new_nodes[0]`. -/
def linkPath : List Nat → List TrieNode → TrieNode
  | _, [] => default
  | _, [n] => n
  | [], n :: _ :: _ => n
  | c :: cs, n :: m :: rest =>
      TrieNode.mk (insOrd c (linkPath cs (m :: rest)) n.children) n.value

/-- The clone loop shared by `Trie::Put` and `Trie::Remove`: for each
index below `len`, a shallow `Clone()` of the path node when it exists, a
fresh plain node where the path ran out. -/
def cloneNodes (path : List TrieNode) (len : Nat) : List TrieNode :=
  (List.range len).map fun i =>
    match path[i]? with
    | some n => n
    | none => TrieNode.mk [] none

/-- Body of `Trie::Put` after key stripping: clone the existing nodes
along the key, fabricate fresh plain nodes where the path ran out, install
a value node at the terminus (preserving the children of the node that was
there, if any), and relink the path bottom-up. -/
def putViaPath (r : Option TrieNode) (key : List Nat) (v : Nat) : TrieNode :=
  let path := Trie.FindPath ⟨r⟩ key
  let last : TrieNode :=
    if path.length = key.length + 1 then
      TrieNode.mk (path.getLastD default).children (some v)
    else
      TrieNode.mk [] (some v)
  linkPath key (cloneNodes path key.length ++ [last])

/-- `Trie::Put`. -/
def Trie.Put (t : Trie) (key0 : List Nat) (v : Nat) : Trie :=
  ⟨some (putViaPath t.root (stripKey key0) v)⟩

/-- The pruning loop of `Trie::Remove`:
`for (; sum > 0; --sum) { if (!path[sum-1]->is_value_node_ && path[sum-1]->children_.size() == 1) {} else break; }`. -/
def pruneUp (path : List TrieNode) : Nat → Nat
  | 0 => 0
  | s + 1 =>
      match path[s]? with
      | some n =>
          if ¬ n.isValueNode ∧ n.children.length = 1 then pruneUp path s else s + 1
      | none => s + 1

/-- The rebuilding branch of `Trie::Remove` (taken when the key reaches a
value node): compute `sum` with the pruning loop, return the empty root
when pruning reached the top, and otherwise relink the retained prefix of
the path with the last retained node either losing its value (no pruning)
or losing the pruned child edge. -/
def removeRebuild (path : List TrieNode) (key : List Nat) : Option TrieNode :=
  let sum : Nat :=
    if (path.getLastD default).children.isEmpty then pruneUp path (path.length - 1)
    else path.length
  if sum = 0 then none
  else
    let last : TrieNode :=
      if sum = key.length + 1 then
        TrieNode.mk (path.getD (sum - 1) default).children none
      else
        TrieNode.mk (eraseA (key.getD (sum - 1) 0) (path.getD (sum - 1) default).children)
          (path.getD (sum - 1) default).value
    some (linkPath (key.take (sum - 1)) (cloneNodes path (sum - 1) ++ [last]))

/-- Body of `Trie::Remove` after key stripping: if the key does not reach
a value node, return the receiver's root unchanged; otherwise rebuild. -/
def removeViaPath (r : Option TrieNode) (key : List Nat) : Option TrieNode :=
  let path := Trie.FindPath ⟨r⟩ key
  if path.length ≠ key.length + 1 ∨ ¬ (path.getLastD default).isValueNode then
    r
  else
    removeRebuild path key

/-- `Trie::Remove`. -/
def Trie.Remove (t : Trie) (key0 : List Nat) : Trie :=
  ⟨removeViaPath t.root (stripKey key0)⟩

/-! ### Well-formedness predicates for trie nodes

`sortedNode` states that every children map in a tree is in the canonical
sorted `std::map` representation; `leafValNode` states the spec invariant
"no non-value leaves": every node without children carries a value. Both
hold for every trie built from the empty trie by `Put`/`Remove`. -/

mutual

def sortedNode : TrieNode → Bool
  | .mk cs _ => sortedKeys cs && sortedChildren cs

def sortedChildren : List (Nat × TrieNode) → Bool
  | [] => true
  | (_, t) :: rest => sortedNode t && sortedChildren rest

end

mutual

def leafValNode : TrieNode → Bool
  | .mk cs v => (!cs.isEmpty || v.isSome) && leafValChildren cs

def leafValChildren : List (Nat × TrieNode) → Bool
  | [] => true
  | (_, t) :: rest => leafValNode t && leafValChildren rest

end

def sortedOpt : Option TrieNode → Bool
  | none => true
  | some n => sortedNode n

def leafOpt : Option TrieNode → Bool
  | none => true
  | some n => leafValNode n

/-! ### Recursive mirrors of the path-based trie operations

The C++ operations materialise the path as a vector and relink it with an
index loop.  For the proofs we use structurally recursive equivalents and
prove, once, that each public operation equals its mirror. -/

/-- Recursive mirror of `Trie::Get` (key already stripped). -/
def getNode : Option TrieNode → List Nat → Option Nat
  | none, _ => none
  | some n, [] => n.value
  | some n, c :: cs => getNode (findA c n.children) cs

/-- Recursive mirror of `Trie::Put` (key already stripped). -/
def putNode : Option TrieNode → List Nat → Nat → TrieNode
  | n, [], v => TrieNode.mk ((n.map TrieNode.children).getD []) (some v)
  | n, c :: cs, v =>
      let cs0 := (n.map TrieNode.children).getD []
      TrieNode.mk (insOrd c (putNode (findA c cs0) cs v) cs0)
        ((n.map TrieNode.value).getD none)

/-- Recursive mirror of `Trie::Remove` (key already stripped).  `none`
means the key does not reach a value node and the receiver is returned
unchanged; `some none` means the rebuilt node was pruned away; and
`some (some n)` is the rebuilt replacement node. -/
def removeNode : Option TrieNode → List Nat → Option (Option TrieNode)
  | none, _ => none
  | some n, [] =>
      if n.isValueNode then
        if n.children.isEmpty then some none
        else some (some (TrieNode.mk n.children none))
      else none
  | some n, c :: cs =>
      match removeNode (findA c n.children) cs with
      | none => none
      | some (some child) =>
          some (some (TrieNode.mk (insOrd c child n.children) n.value))
      | some none =>
          if ¬ n.isValueNode ∧ n.children.length = 1 then some none
          else some (some (TrieNode.mk (eraseA c n.children) n.value))

/-- Interpret a `removeNode` outcome against the receiver's root. -/
def remInterp (r : Option TrieNode) : Option (Option TrieNode) → Option TrieNode
  | none => r
  | some r' => r'

/-! ### Association-list lemmas -/

theorem findA_insOrd_self {β : Type} (c : Nat) (v : β) (l : List (Nat × β)) :
    findA c (insOrd c v l) = some v := by
  induction l with
  | nil => simp [insOrd, findA]
  | cons hd tl ih =>
      obtain ⟨c', v'⟩ := hd
      by_cases h1 : c = c'
      · simp [insOrd, h1, findA]
      · by_cases h2 : c < c'
        · simp [insOrd, h1, h2, findA]
        · simp [insOrd, h1, h2, findA, ih]

theorem findA_insOrd_ne {β : Type} {c d : Nat} (h : d ≠ c) (v : β) (l : List (Nat × β)) :
    findA d (insOrd c v l) = findA d l := by
  induction l with
  | nil => simp [insOrd, findA, h]
  | cons hd tl ih =>
      obtain ⟨c', v'⟩ := hd
      by_cases h1 : c = c'
      · subst h1
        simp [insOrd, findA, h]
      · by_cases h2 : c < c'
        · simp [insOrd, h1, h2, findA, h]
        · by_cases h3 : d = c'
          · simp [insOrd, h1, h2, findA, h3]
          · simp [insOrd, h1, h2, findA, h3, ih]

theorem mem_of_findA_some {β : Type} {c : Nat} {v : β} {l : List (Nat × β)}
    (h : findA c l = some v) : (c, v) ∈ l := by
  induction l with
  | nil => simp [findA] at h
  | cons hd tl ih =>
      obtain ⟨c', v'⟩ := hd
      by_cases h1 : c = c'
      · subst h1
        simp [findA] at h
        simp [h]
      · simp [findA, h1] at h
        exact List.mem_cons_of_mem _ (ih h)

theorem findA_eq_none_of_forall {β : Type} {c : Nat} {l : List (Nat × β)}
    (h : ∀ p ∈ l, c ≠ p.1) : findA c l = none := by
  induction l with
  | nil => rfl
  | cons hd tl ih =>
      obtain ⟨c', v'⟩ := hd
      have hne : c ≠ c' := h (c', v') (List.mem_cons_self _ _)
      simp only [findA, if_neg hne]
      exact ih fun p hp => h p (List.mem_cons_of_mem _ hp)

theorem sortedKeys_cons {β : Type} {c' : Nat} {v' : β} {l : List (Nat × β)} :
    sortedKeys ((c', v') :: l) = true ↔
      (∀ p ∈ l, c' < p.1) ∧ sortedKeys l = true := by
  simp [sortedKeys, List.pairwise_cons]

theorem insOrd_eq_self {β : Type} {c : Nat} {v : β} {l : List (Nat × β)}
    (hs : sortedKeys l = true) (h : findA c l = some v) : insOrd c v l = l := by
  induction l with
  | nil => simp [findA] at h
  | cons hd tl ih =>
      obtain ⟨c', v'⟩ := hd
      rw [sortedKeys_cons] at hs
      by_cases h1 : c = c'
      · subst h1
        simp [findA] at h
        simp [insOrd, h]
      · simp only [findA, if_neg h1] at h
        have hlt : c' < c := by
          have := hs.1 (c, v) (mem_of_findA_some h)
          exact this
        have h2 : ¬ c < c' := by omega
        simp [insOrd, h1, h2, ih hs.2 h]

theorem insOrd_insOrd {β : Type} (c : Nat) (v w : β) (l : List (Nat × β)) :
    insOrd c w (insOrd c v l) = insOrd c w l := by
  induction l with
  | nil => simp [insOrd]
  | cons hd tl ih =>
      obtain ⟨c', v'⟩ := hd
      by_cases h1 : c = c'
      · simp [insOrd, h1]
      · by_cases h2 : c < c'
        · simp [insOrd, h1, h2]
        · simp [insOrd, h1, h2, ih]

theorem eraseA_insOrd_absent {β : Type} {c : Nat} {l : List (Nat × β)}
    (h : findA c l = none) (v : β) : eraseA c (insOrd c v l) = l := by
  induction l with
  | nil => simp [insOrd, eraseA]
  | cons hd tl ih =>
      obtain ⟨c', v'⟩ := hd
      by_cases h1 : c = c'
      · simp [findA, h1] at h
      · simp only [findA, if_neg h1] at h
        by_cases h2 : c < c'
        · simp [insOrd, h1, h2, eraseA]
        · simp [insOrd, h1, h2, eraseA, ih h]

theorem findA_eraseA_self {β : Type} (c : Nat) {l : List (Nat × β)}
    (hs : sortedKeys l = true) : findA c (eraseA c l) = none := by
  induction l with
  | nil => rfl
  | cons hd tl ih =>
      obtain ⟨c', v'⟩ := hd
      rw [sortedKeys_cons] at hs
      by_cases h1 : c = c'
      · subst h1
        simp only [eraseA, if_pos rfl]
        exact findA_eq_none_of_forall fun p hp => by
          have := hs.1 p hp
          omega
      · simp [eraseA, h1, findA, ih hs.2]

theorem length_insOrd_of_absent {β : Type} {c : Nat} {l : List (Nat × β)}
    (h : findA c l = none) (v : β) : (insOrd c v l).length = l.length + 1 := by
  induction l with
  | nil => simp [insOrd]
  | cons hd tl ih =>
      obtain ⟨c', v'⟩ := hd
      by_cases h1 : c = c'
      · simp [findA, h1] at h
      · simp only [findA, if_neg h1] at h
        by_cases h2 : c < c'
        · simp [insOrd, h1, h2]
        · simp [insOrd, h1, h2, ih h]

theorem length_eraseA_of_present {β : Type} {c : Nat} {v : β} {l : List (Nat × β)}
    (h : findA c l = some v) : (eraseA c l).length + 1 = l.length := by
  induction l with
  | nil => simp [findA] at h
  | cons hd tl ih =>
      obtain ⟨c', v'⟩ := hd
      by_cases h1 : c = c'
      · simp [eraseA, h1]
      · simp only [findA, if_neg h1] at h
        simp [eraseA, h1, ih h]

theorem mem_insOrd {β : Type} {c : Nat} {v : β} {l : List (Nat × β)} {p : Nat × β}
    (h : p ∈ insOrd c v l) : p = (c, v) ∨ p ∈ l := by
  induction l with
  | nil => simpa [insOrd] using h
  | cons hd tl ih =>
      obtain ⟨c', v'⟩ := hd
      by_cases h1 : c = c'
      · simp only [insOrd, if_pos h1] at h
        rcases List.mem_cons.1 h with h' | h'
        · exact Or.inl h'
        · exact Or.inr (List.mem_cons_of_mem _ h')
      · by_cases h2 : c < c'
        · simp only [insOrd, if_neg h1, if_pos h2] at h
          rcases List.mem_cons.1 h with h' | h'
          · exact Or.inl h'
          · exact Or.inr h'
        · simp only [insOrd, if_neg h1, if_neg h2] at h
          rcases List.mem_cons.1 h with h' | h'
          · exact Or.inr (by simp [h'])
          · rcases ih h' with h'' | h''
            · exact Or.inl h''
            · exact Or.inr (List.mem_cons_of_mem _ h'')

theorem sortedKeys_insOrd {β : Type} {c : Nat} {v : β} {l : List (Nat × β)}
    (hs : sortedKeys l = true) : sortedKeys (insOrd c v l) = true := by
  induction l with
  | nil => simp [insOrd, sortedKeys]
  | cons hd tl ih =>
      obtain ⟨c', v'⟩ := hd
      rw [sortedKeys_cons] at hs
      by_cases h1 : c = c'
      · subst h1
        simp only [insOrd, if_pos rfl]
        exact sortedKeys_cons.2 hs
      · by_cases h2 : c < c'
        · simp only [insOrd, if_neg h1, if_pos h2]
          refine sortedKeys_cons.2 ⟨?_, sortedKeys_cons.2 hs⟩
          intro p hp
          rcases List.mem_cons.1 hp with h' | h'
          · simp [h', h2]
          · have := hs.1 p h'
            omega
        · simp only [insOrd, if_neg h1, if_neg h2]
          refine sortedKeys_cons.2 ⟨?_, ih hs.2⟩
          intro p hp
          rcases mem_insOrd hp with h' | h'
          · subst h'
            omega
          · exact hs.1 p h'

theorem eraseA_sublist {β : Type} (c : Nat) (l : List (Nat × β)) :
    List.Sublist (eraseA c l) l := by
  induction l with
  | nil => simp [eraseA]
  | cons hd tl ih =>
      obtain ⟨a, b⟩ := hd
      by_cases h2 : c = a
      · simp only [eraseA, if_pos h2]
        exact List.sublist_cons_self _ _
      · simp only [eraseA, if_neg h2]
        exact List.Sublist.cons₂ (a, b) ih

theorem sortedKeys_eraseA {β : Type} {c : Nat} {l : List (Nat × β)}
    (hs : sortedKeys l = true) : sortedKeys (eraseA c l) = true := by
  induction l with
  | nil => simp [eraseA, sortedKeys]
  | cons hd tl ih =>
      obtain ⟨c', v'⟩ := hd
      rw [sortedKeys_cons] at hs
      by_cases h1 : c = c'
      · simpa [eraseA, h1] using hs.2
      · simp only [eraseA, if_neg h1]
        refine sortedKeys_cons.2 ⟨?_, ih hs.2⟩
        intro p hp
        exact hs.1 p ((eraseA_sublist c tl).mem hp)

/-! ### Structural lemmas about `FindPath`, `cloneNodes` and `linkPath` -/

theorem FindPath_none (k : List Nat) : Trie.FindPath ⟨none⟩ k = [] := rfl

theorem FindPath_nil (n : TrieNode) : Trie.FindPath ⟨some n⟩ [] = [n] := rfl

theorem FindPath_cons_none {n : TrieNode} {c : Nat} (cs : List Nat)
    (h : findA c n.children = none) : Trie.FindPath ⟨some n⟩ (c :: cs) = [n] := by
  simp [Trie.FindPath, findPathFrom, h]

theorem FindPath_cons_some {n ch : TrieNode} {c : Nat} (cs : List Nat)
    (h : findA c n.children = some ch) :
    Trie.FindPath ⟨some n⟩ (c :: cs) = n :: Trie.FindPath ⟨some ch⟩ cs := by
  simp [Trie.FindPath, findPathFrom, h]

theorem cloneNodes_zero (path : List TrieNode) : cloneNodes path 0 = [] := rfl

theorem cloneNodes_succ (path : List TrieNode) (m : Nat) :
    cloneNodes path (m + 1) =
      (match path[0]? with | some n => n | none => TrieNode.mk [] none) ::
        cloneNodes path.tail m := by
  simp only [cloneNodes, List.range_succ_eq_map, List.map_cons, List.map_map]
  refine congrArg₂ _ rfl (List.map_congr_left fun i _ => ?_)
  cases path with
  | nil => simp
  | cons hd tl => simp

theorem linkPath_single (k : List Nat) (n : TrieNode) : linkPath k [n] = n := by
  cases k <;> rfl

theorem linkPath_cons {rest : List TrieNode} (hne : rest ≠ []) (c : Nat) (cs : List Nat)
    (n : TrieNode) :
    linkPath (c :: cs) (n :: rest) =
      TrieNode.mk (insOrd c (linkPath cs rest) n.children) n.value := by
  cases rest with
  | nil => exact absurd rfl hne
  | cons m r => rfl

theorem getLastD_of_ne_nil {l : List TrieNode} (hne : l ≠ []) (d₁ d₂ : TrieNode) :
    l.getLastD d₁ = l.getLastD d₂ := by
  obtain ⟨x, hx⟩ := Option.isSome_iff_exists.1 (List.getLast?_isSome.2 hne)
  simp [List.getLastD_eq_getLast?, hx]

/-! ### Bridge: the path-based operations equal their recursive mirrors -/

theorem getViaPath_eq_getNode (k : List Nat) : ∀ r : Option TrieNode,
    getViaPath r k = getNode r k := by
  induction k with
  | nil =>
      intro r
      cases r with
      | none => rfl
      | some n => rfl
  | cons c cs ih =>
      intro r
      cases r with
      | none => rfl
      | some n =>
          cases h : findA c n.children with
          | none =>
              simp only [getViaPath, FindPath_cons_none cs h, getNode, h]
              have : getNode none cs = none := by cases cs <;> rfl
              simp [this]
          | some ch =>
              have hcons := FindPath_cons_some cs h
              have hlen : (Trie.FindPath ⟨some ch⟩ cs).length = cs.length + 1 ∨
                  (Trie.FindPath ⟨some ch⟩ cs).length ≠ cs.length + 1 := em _
              simp only [getViaPath, hcons, getNode, h]
              have hne : Trie.FindPath ⟨some ch⟩ cs ≠ [] := by
                simp [Trie.FindPath, findPathFrom]
              rcases hlen with hl | hl
              · rw [if_pos (by simp [hl]), List.getLastD_cons,
                  getLastD_of_ne_nil hne n default, ← ih (some ch), getViaPath, if_pos hl]
              · rw [if_neg (by simp [hl]), ← ih (some ch), getViaPath, if_neg hl]

theorem Get_eq_getNode (r : Option TrieNode) (key : List Nat) :
    Trie.Get ⟨r⟩ key = getNode r (stripKey key) := by
  simp [Trie.Get, getViaPath_eq_getNode]

theorem putViaPath_none (cs : List Nat) (v : Nat) :
    putViaPath none cs v =
      linkPath cs (cloneNodes [] cs.length ++ [TrieNode.mk [] (some v)]) := by
  simp [putViaPath, FindPath_none]

theorem putViaPath_eq_putNode (v : Nat) : ∀ (k : List Nat) (r : Option TrieNode),
    putViaPath r k v = putNode r k v := by
  intro k
  induction k with
  | nil =>
      intro r
      cases r with
      | none => rfl
      | some n => rfl
  | cons c cs ih =>
      intro r
      have happ : ∀ (l : List TrieNode) (x : TrieNode), l ++ [x] ≠ [] := by
        intro l x h
        exact absurd (List.append_eq_nil.1 h).2 (by simp)
      cases r with
      | none =>
          rw [putViaPath_none, List.length_cons, cloneNodes_succ]
          simp only [List.getElem?_nil, List.tail_nil]
          rw [List.cons_append, linkPath_cons (happ _ _) c cs, ← putViaPath_none, ih none]
          simp [putNode, findA, TrieNode.children, TrieNode.value]
      | some n =>
          cases h : findA c n.children with
          | none =>
              have hpath := FindPath_cons_none cs h
              have h1 : putViaPath (some n) (c :: cs) v =
                  linkPath (c :: cs)
                    (cloneNodes [n] (cs.length + 1) ++ [TrieNode.mk [] (some v)]) := by
                simp [putViaPath, hpath]
              rw [h1, cloneNodes_succ]
              simp only [List.getElem?_cons_zero, List.tail_cons]
              rw [List.cons_append, linkPath_cons (happ _ _) c cs,
                ← putViaPath_none, ih none]
              simp [putNode, h]
          | some ch =>
              have hpath := FindPath_cons_some cs h
              have hne : Trie.FindPath ⟨some ch⟩ cs ≠ [] := by
                simp [Trie.FindPath, findPathFrom]
              have hlast :
                  (if (Trie.FindPath ⟨some n⟩ (c :: cs)).length = (c :: cs).length + 1 then
                    TrieNode.mk ((Trie.FindPath ⟨some n⟩ (c :: cs)).getLastD default).children
                      (some v)
                  else TrieNode.mk [] (some v)) =
                  (if (Trie.FindPath ⟨some ch⟩ cs).length = cs.length + 1 then
                    TrieNode.mk ((Trie.FindPath ⟨some ch⟩ cs).getLastD default).children (some v)
                  else TrieNode.mk [] (some v)) := by
                by_cases hl : (Trie.FindPath ⟨some ch⟩ cs).length = cs.length + 1
                · rw [if_pos hl, if_pos (by simp [hpath, hl]), hpath, List.getLastD_cons,
                    getLastD_of_ne_nil hne n default]
                · rw [if_neg hl, if_neg (by simp [hpath, hl])]
              have h1 : putViaPath (some n) (c :: cs) v =
                  linkPath (c :: cs)
                    (cloneNodes (n :: Trie.FindPath ⟨some ch⟩ cs) (cs.length + 1) ++
                      [if (Trie.FindPath ⟨some ch⟩ cs).length = cs.length + 1 then
                        TrieNode.mk ((Trie.FindPath ⟨some ch⟩ cs).getLastD default).children
                          (some v)
                      else TrieNode.mk [] (some v)]) := by
                rw [putViaPath]
                rw [← hlast, hpath]
                rfl
              rw [h1, cloneNodes_succ]
              simp only [List.getElem?_cons_zero, List.tail_cons]
              rw [List.cons_append, linkPath_cons (happ _ _) c cs, show
                linkPath cs
                  (cloneNodes (Trie.FindPath ⟨some ch⟩ cs) cs.length ++
                    [if (Trie.FindPath ⟨some ch⟩ cs).length = cs.length + 1 then
                      TrieNode.mk ((Trie.FindPath ⟨some ch⟩ cs).getLastD default).children
                        (some v)
                    else TrieNode.mk [] (some v)]) = putViaPath (some ch) cs v from rfl,
                ih (some ch)]
              simp [putNode, h]

theorem Put_eq_putNode (r : Option TrieNode) (key : List Nat) (v : Nat) :
    Trie.Put ⟨r⟩ key v = ⟨some (putNode r (stripKey key) v)⟩ := by
  simp [Trie.Put, putViaPath_eq_putNode]

theorem removeNode_none_key (k : List Nat) : removeNode none k = none := by
  cases k <;> rfl

theorem FindPath_some_ne_nil (n : TrieNode) (k : List Nat) :
    Trie.FindPath ⟨some n⟩ k ≠ [] := by
  simp [Trie.FindPath]

theorem pruneUp_succ (path : List TrieNode) (s : Nat) :
    pruneUp path (s + 1) =
      match path[s]? with
      | some n =>
          if ¬ n.isValueNode ∧ n.children.length = 1 then pruneUp path s else s + 1
      | none => s + 1 := rfl

theorem pruneUp_cons (r : TrieNode) (p : List TrieNode) (s : Nat) :
    pruneUp (r :: p) (s + 1) =
      if pruneUp p s = 0 then
        if ¬ r.isValueNode ∧ r.children.length = 1 then 0 else 1
      else pruneUp p s + 1 := by
  induction s with
  | zero => simp [pruneUp]
  | succ s ih =>
      rw [pruneUp_succ (r :: p) (s + 1), List.getElem?_cons_succ, pruneUp_succ p s]
      cases hm : p[s]? with
      | none =>
          simp only [hm]
          rw [if_neg (show ¬(s + 1 = 0) by omega)]
      | some m =>
          simp only [hm]
          by_cases hcond : ¬ m.isValueNode ∧ m.children.length = 1
          · rw [if_pos hcond, if_pos hcond, ih]
          · rw [if_neg hcond, if_neg hcond, if_neg (show ¬(s + 1 = 0) by omega)]

theorem removeRebuild_cons (n ch : TrieNode) (fp : List TrieNode) (c : Nat) (cs : List Nat) :
    removeRebuild (n :: ch :: fp) (c :: cs) =
      match removeRebuild (ch :: fp) cs with
      | none =>
          if ¬ n.isValueNode ∧ n.children.length = 1 then none
          else some (TrieNode.mk (eraseA c n.children) n.value)
      | some child => some (TrieNode.mk (insOrd c child n.children) n.value) := by
  have hLeq : (n :: ch :: fp).getLastD default = (ch :: fp).getLastD default := by
    rw [List.getLastD_cons, getLastD_of_ne_nil (by simp) n default]
  have happ : ∀ (l : List TrieNode) (x : TrieNode), l ++ [x] ≠ [] := by
    intro l x hx
    exact absurd (List.append_eq_nil.1 hx).2 (by simp)
  have hmain : ∀ s : Nat, s ≠ 0 →
      (if s + 1 = 0 then (none : Option TrieNode)
       else
        some (linkPath (List.take (s + 1 - 1) (c :: cs))
          (cloneNodes (n :: ch :: fp) (s + 1 - 1) ++
            [if s + 1 = cs.length + 1 + 1 then
                TrieNode.mk ((n :: ch :: fp).getD (s + 1 - 1) default).children none
              else
                TrieNode.mk
                  (eraseA ((c :: cs).getD (s + 1 - 1) 0)
                    ((n :: ch :: fp).getD (s + 1 - 1) default).children)
                  ((n :: ch :: fp).getD (s + 1 - 1) default).value]))) =
      match
        (if s = 0 then (none : Option TrieNode)
         else
          some (linkPath (List.take (s - 1) cs)
            (cloneNodes (ch :: fp) (s - 1) ++
              [if s = cs.length + 1 then
                  TrieNode.mk ((ch :: fp).getD (s - 1) default).children none
                else
                  TrieNode.mk
                    (eraseA (cs.getD (s - 1) 0) ((ch :: fp).getD (s - 1) default).children)
                    ((ch :: fp).getD (s - 1) default).value])))
      with
      | none =>
          if ¬ n.isValueNode ∧ n.children.length = 1 then none
          else some (TrieNode.mk (eraseA c n.children) n.value)
      | some child => some (TrieNode.mk (insOrd c child n.children) n.value) := by
    intro s hs0
    obtain ⟨m, hm⟩ : ∃ m, s = m + 1 := ⟨s - 1, by omega⟩
    subst hm
    rw [if_neg (show ¬(m + 1 + 1 = 0) by omega), if_neg (show ¬(m + 1 = 0) by omega)]
    have hiff : (m + 1 + 1 = cs.length + 1 + 1) ↔ (m + 1 = cs.length + 1) := by omega
    simp only [hiff, Nat.add_sub_cancel, List.take_succ_cons, List.getD_cons_succ,
      cloneNodes_succ, List.getElem?_cons_zero, List.tail_cons, List.cons_append,
      linkPath_cons (happ _ _)]
  have hone : ¬ (¬ n.isValueNode ∧ n.children.length = 1) →
      (if (1 : Nat) = 0 then (none : Option TrieNode)
       else
        some (linkPath (List.take (1 - 1) (c :: cs))
          (cloneNodes (n :: ch :: fp) (1 - 1) ++
            [if (1 : Nat) = cs.length + 1 + 1 then
                TrieNode.mk ((n :: ch :: fp).getD (1 - 1) default).children none
              else
                TrieNode.mk
                  (eraseA ((c :: cs).getD (1 - 1) 0)
                    ((n :: ch :: fp).getD (1 - 1) default).children)
                  ((n :: ch :: fp).getD (1 - 1) default).value]))) =
        some (TrieNode.mk (eraseA c n.children) n.value) := by
    intro hcond
    rw [if_neg (show ¬((1 : Nat) = 0) by omega),
      if_neg (show ¬((1 : Nat) = cs.length + 1 + 1) by omega)]
    simp only [Nat.sub_self, List.take_zero, cloneNodes_zero, List.nil_append,
      linkPath_single, List.getD_cons_zero]
  simp only [removeRebuild, hLeq, List.length_cons, Nat.add_sub_cancel]
  by_cases hie : ((ch :: fp).getLastD default).children.isEmpty = true
  · rw [if_pos hie, if_pos hie, pruneUp_cons]
    by_cases hs0 : pruneUp (ch :: fp) fp.length = 0
    · rw [if_pos hs0, if_pos hs0]
      by_cases hcond : ¬ n.isValueNode ∧ n.children.length = 1
      · rw [if_pos hcond, if_pos rfl]
        simp only [if_pos hcond]
      · rw [if_neg hcond]
        simp only [if_neg hcond]
        exact hone hcond
    · rw [if_neg hs0]
      exact hmain _ hs0
  · rw [if_neg hie, if_neg hie]
    exact hmain _ (by omega)

theorem removeNode_path_spec : ∀ (k : List Nat) (r : Option TrieNode),
    (removeNode r k = none ↔
      ((Trie.FindPath ⟨r⟩ k).length ≠ k.length + 1 ∨
        ¬ ((Trie.FindPath ⟨r⟩ k).getLastD default).isValueNode)) ∧
    (∀ o, removeNode r k = some o → removeRebuild (Trie.FindPath ⟨r⟩ k) k = o) := by
  intro k
  induction k with
  | nil =>
      intro r
      cases r with
      | none =>
          refine ⟨by simp [removeNode, FindPath_none], fun o ho => ?_⟩
          simp [removeNode] at ho
      | some n =>
          constructor
          · by_cases hv : n.isValueNode
            · by_cases hc : n.children.isEmpty
              · simp [removeNode, hv, hc, FindPath_nil]
              · simp [removeNode, hv, hc, FindPath_nil]
            · simp [removeNode, hv, FindPath_nil]
          · intro o ho
            by_cases hv : n.isValueNode
            · by_cases hc : n.children.isEmpty
              · simp only [removeNode, if_pos hv, if_pos hc, Option.some.injEq] at ho
                subst ho
                simp [removeRebuild, FindPath_nil, hc, pruneUp]
              · simp only [removeNode, if_pos hv, if_neg hc, Option.some.injEq] at ho
                subst ho
                simp [removeRebuild, FindPath_nil, hc, linkPath_single, cloneNodes_zero]
            · simp [removeNode, hv] at ho
  | cons c cs ih =>
      intro r
      cases r with
      | none =>
          refine ⟨by simp [removeNode_none_key, FindPath_none], fun o ho => ?_⟩
          rw [removeNode_none_key] at ho
          exact absurd ho (by simp)
      | some n =>
          cases h : findA c n.children with
          | none =>
              have hstep : removeNode (some n) (c :: cs) = none := by
                simp only [removeNode, h, removeNode_none_key]
              refine ⟨by simp [hstep, FindPath_cons_none cs h], fun o ho => ?_⟩
              rw [hstep] at ho
              exact absurd ho (by simp)
          | some ch =>
              have hpath := FindPath_cons_some cs h
              have hpne : Trie.FindPath ⟨some ch⟩ cs ≠ [] := FindPath_some_ne_nil ch cs
              have hlast : (Trie.FindPath ⟨some n⟩ (c :: cs)).getLastD default =
                  (Trie.FindPath ⟨some ch⟩ cs).getLastD default := by
                rw [hpath, List.getLastD_cons, getLastD_of_ne_nil hpne n default]
              have hlen : (Trie.FindPath ⟨some n⟩ (c :: cs)).length =
                  (Trie.FindPath ⟨some ch⟩ cs).length + 1 := by
                rw [hpath, List.length_cons]
              have hguard : ((Trie.FindPath ⟨some n⟩ (c :: cs)).length ≠ (c :: cs).length + 1 ∨
                    ¬ ((Trie.FindPath ⟨some n⟩ (c :: cs)).getLastD default).isValueNode) ↔
                  ((Trie.FindPath ⟨some ch⟩ cs).length ≠ cs.length + 1 ∨
                    ¬ ((Trie.FindPath ⟨some ch⟩ cs).getLastD default).isValueNode) := by
                rw [hlast, hlen, List.length_cons]
                constructor
                · rintro (h1 | h2)
                  · exact Or.inl (by omega)
                  · exact Or.inr h2
                · rintro (h1 | h2)
                  · exact Or.inl (by omega)
                  · exact Or.inr h2
              have hstep : removeNode (some n) (c :: cs) =
                  match removeNode (some ch) cs with
                  | none => none
                  | some (some child) =>
                      some (some (TrieNode.mk (insOrd c child n.children) n.value))
                  | some none =>
                      if ¬ n.isValueNode ∧ n.children.length = 1 then some none
                      else some (some (TrieNode.mk (eraseA c n.children) n.value)) := by
                simp only [removeNode, h]
              obtain ⟨iha, ihb⟩ := ih (some ch)
              cases hinner : removeNode (some ch) cs with
              | none =>
                  have houter : removeNode (some n) (c :: cs) = none := by
                    rw [hstep, hinner]
                  refine ⟨by rw [houter, hguard, ← iha, hinner], fun o ho => ?_⟩
                  rw [houter] at ho
                  exact absurd ho (by simp)
              | some o' =>
                  have hgfalse : ¬ ((Trie.FindPath ⟨some n⟩ (c :: cs)).length ≠
                        (c :: cs).length + 1 ∨
                      ¬ ((Trie.FindPath ⟨some n⟩ (c :: cs)).getLastD default).isValueNode) := by
                    rw [hguard, ← iha, hinner]
                    simp
                  have hrebuild := ihb o' hinner
                  constructor
                  · rw [hstep, hinner]
                    cases o' with
                    | none =>
                        refine iff_of_false ?_ hgfalse
                        by_cases hcond : ¬ n.isValueNode ∧ n.children.length = 1
                        · rw [if_pos hcond]
                          simp
                        · rw [if_neg hcond]
                          simp
                    | some child => exact iff_of_false (by simp) hgfalse
                  · intro o ho
                    rw [hstep, hinner] at ho
                    have hout : Trie.FindPath ⟨some n⟩ (c :: cs) =
                        n :: ch :: findPathFrom ch cs := by
                      rw [hpath]
                      rfl
                    have hrb : removeRebuild (ch :: findPathFrom ch cs) cs = o' := hrebuild
                    rw [hout, removeRebuild_cons, hrb]
                    cases o' with
                    | none =>
                        by_cases hcond : ¬ n.isValueNode ∧ n.children.length = 1
                        · rw [if_pos hcond] at ho
                          simp only [Option.some.injEq] at ho
                          simp only [if_pos hcond]
                          exact ho
                        · rw [if_neg hcond] at ho
                          simp only [Option.some.injEq] at ho
                          simp only [if_neg hcond]
                          exact ho
                    | some child =>
                        simp only [Option.some.injEq] at ho
                        exact ho

theorem removeViaPath_eq_removeNode (k : List Nat) (r : Option TrieNode) :
    removeViaPath r k = remInterp r (removeNode r k) := by
  obtain ⟨ha, hb⟩ := removeNode_path_spec k r
  cases h : removeNode r k with
  | none =>
      have hg := ha.1 h
      simp only [removeViaPath, remInterp]
      rw [if_pos hg]
  | some o =>
      have hg : ¬ ((Trie.FindPath ⟨r⟩ k).length ≠ k.length + 1 ∨
          ¬ ((Trie.FindPath ⟨r⟩ k).getLastD default).isValueNode) := by
        intro hh
        rw [ha.2 hh] at h
        exact absurd h (by simp)
      simp only [removeViaPath, remInterp]
      rw [if_neg hg]
      exact hb o h

theorem Remove_eq_removeNode (r : Option TrieNode) (key : List Nat) :
    Trie.Remove ⟨r⟩ key = ⟨remInterp r (removeNode r (stripKey key))⟩ := by
  simp [Trie.Remove, removeViaPath_eq_removeNode]

/-! ### Lemmas about the well-formedness predicates -/

theorem band_true_elim {a b : Bool} (h : (a && b) = true) : a = true ∧ b = true := by
  simp at h
  exact h

theorem sortedNode_mk (cs : List (Nat × TrieNode)) (v : Option Nat) :
    sortedNode (TrieNode.mk cs v) = (sortedKeys cs && sortedChildren cs) := by
  simp [sortedNode]

theorem leafValNode_mk (cs : List (Nat × TrieNode)) (v : Option Nat) :
    leafValNode (TrieNode.mk cs v) = ((!cs.isEmpty || v.isSome) && leafValChildren cs) := by
  simp [leafValNode]

theorem sortedNode_parts {n : TrieNode} (h : sortedNode n = true) :
    sortedKeys n.children = true ∧ sortedChildren n.children = true := by
  cases n with
  | mk cs v =>
      rw [sortedNode_mk] at h
      exact ⟨(band_true_elim h).1, (band_true_elim h).2⟩

theorem leafValNode_parts {n : TrieNode} (h : leafValNode n = true) :
    (!n.children.isEmpty || n.value.isSome) = true ∧ leafValChildren n.children = true := by
  cases n with
  | mk cs v =>
      rw [leafValNode_mk] at h
      exact ⟨(band_true_elim h).1, (band_true_elim h).2⟩

theorem sortedChildren_mem : ∀ {cs : List (Nat × TrieNode)} {c : Nat} {t : TrieNode},
    sortedChildren cs = true → (c, t) ∈ cs → sortedNode t = true := by
  intro cs
  induction cs with
  | nil => intro c t _ hm; simp at hm
  | cons hd tl ih =>
      intro c t hsc hm
      obtain ⟨c', t'⟩ := hd
      have : sortedNode t' = true ∧ sortedChildren tl = true := by
        rw [show sortedChildren ((c', t') :: tl) = (sortedNode t' && sortedChildren tl) from by
          simp [sortedChildren]] at hsc
        exact ⟨(band_true_elim hsc).1, (band_true_elim hsc).2⟩
      rcases List.mem_cons.1 hm with h' | h'
      · obtain ⟨h1, h2⟩ := Prod.mk.injEq .. ▸ h'
        exact h2 ▸ this.1
      · exact ih this.2 h'

theorem leafValChildren_mem : ∀ {cs : List (Nat × TrieNode)} {c : Nat} {t : TrieNode},
    leafValChildren cs = true → (c, t) ∈ cs → leafValNode t = true := by
  intro cs
  induction cs with
  | nil => intro c t _ hm; simp at hm
  | cons hd tl ih =>
      intro c t hsc hm
      obtain ⟨c', t'⟩ := hd
      have : leafValNode t' = true ∧ leafValChildren tl = true := by
        rw [show leafValChildren ((c', t') :: tl) = (leafValNode t' && leafValChildren tl) from by
          simp [leafValChildren]] at hsc
        exact ⟨(band_true_elim hsc).1, (band_true_elim hsc).2⟩
      rcases List.mem_cons.1 hm with h' | h'
      · obtain ⟨h1, h2⟩ := Prod.mk.injEq .. ▸ h'
        exact h2 ▸ this.1
      · exact ih this.2 h'

theorem sortedChildren_cons (c : Nat) (t : TrieNode) (tl : List (Nat × TrieNode)) :
    sortedChildren ((c, t) :: tl) = (sortedNode t && sortedChildren tl) := by
  simp [sortedChildren]

theorem leafValChildren_cons (c : Nat) (t : TrieNode) (tl : List (Nat × TrieNode)) :
    leafValChildren ((c, t) :: tl) = (leafValNode t && leafValChildren tl) := by
  simp [leafValChildren]

theorem sortedChildren_insOrd {cs : List (Nat × TrieNode)} {c : Nat} {t : TrieNode}
    (hsc : sortedChildren cs = true) (ht : sortedNode t = true) :
    sortedChildren (insOrd c t cs) = true := by
  induction cs with
  | nil => simp [insOrd, sortedChildren_cons, ht, sortedChildren]
  | cons hd tl ih =>
      obtain ⟨c', t'⟩ := hd
      rw [sortedChildren_cons] at hsc
      replace hsc := band_true_elim hsc
      by_cases h1 : c = c'
      · simp [insOrd, h1, sortedChildren_cons, ht, hsc.2]
      · by_cases h2 : c < c'
        · simp [insOrd, h1, h2, sortedChildren_cons, ht, hsc.1, hsc.2]
        · simp [insOrd, h1, h2, sortedChildren_cons, hsc.1, ih hsc.2]

theorem sortedChildren_eraseA {cs : List (Nat × TrieNode)} {c : Nat}
    (hsc : sortedChildren cs = true) : sortedChildren (eraseA c cs) = true := by
  induction cs with
  | nil => simp [eraseA, sortedChildren]
  | cons hd tl ih =>
      obtain ⟨c', t'⟩ := hd
      rw [sortedChildren_cons] at hsc
      replace hsc := band_true_elim hsc
      by_cases h1 : c = c'
      · simpa [eraseA, h1] using hsc.2
      · simp [eraseA, h1, sortedChildren_cons, hsc.1, ih hsc.2]

theorem leafValChildren_insOrd {cs : List (Nat × TrieNode)} {c : Nat} {t : TrieNode}
    (hsc : leafValChildren cs = true) (ht : leafValNode t = true) :
    leafValChildren (insOrd c t cs) = true := by
  induction cs with
  | nil => simp [insOrd, leafValChildren_cons, ht, leafValChildren]
  | cons hd tl ih =>
      obtain ⟨c', t'⟩ := hd
      rw [leafValChildren_cons] at hsc
      replace hsc := band_true_elim hsc
      by_cases h1 : c = c'
      · simp [insOrd, h1, leafValChildren_cons, ht, hsc.2]
      · by_cases h2 : c < c'
        · simp [insOrd, h1, h2, leafValChildren_cons, ht, hsc.1, hsc.2]
        · simp [insOrd, h1, h2, leafValChildren_cons, hsc.1, ih hsc.2]

theorem leafValChildren_eraseA {cs : List (Nat × TrieNode)} {c : Nat}
    (hsc : leafValChildren cs = true) : leafValChildren (eraseA c cs) = true := by
  induction cs with
  | nil => simp [eraseA, leafValChildren]
  | cons hd tl ih =>
      obtain ⟨c', t'⟩ := hd
      rw [leafValChildren_cons] at hsc
      replace hsc := band_true_elim hsc
      by_cases h1 : c = c'
      · simpa [eraseA, h1] using hsc.2
      · simp [eraseA, h1, leafValChildren_cons, hsc.1, ih hsc.2]

theorem insOrd_ne_nil {β : Type} (c : Nat) (v : β) (l : List (Nat × β)) :
    insOrd c v l ≠ [] := by
  cases l with
  | nil => simp [insOrd]
  | cons hd tl =>
      obtain ⟨c', v'⟩ := hd
      by_cases h1 : c = c'
      · simp [insOrd, h1]
      · by_cases h2 : c < c'
        · simp [insOrd, h1, h2]
        · simp [insOrd, h1, h2]

/-! ### Algebraic properties of the recursive mirrors -/

theorem getNode_none (k : List Nat) : getNode none k = none := by
  cases k <;> rfl

theorem getNode_putNode (v : Nat) : ∀ (k : List Nat) (r : Option TrieNode),
    getNode (some (putNode r k v)) k = some v := by
  intro k
  induction k with
  | nil => intro r; cases r <;> rfl
  | cons c cs ih =>
      intro r
      simp only [putNode, getNode, TrieNode.children, findA_insOrd_self]
      exact ih _

theorem getNode_of_removeNode_none : ∀ (k : List Nat) (r : Option TrieNode),
    removeNode r k = none → getNode r k = none := by
  intro k
  induction k with
  | nil =>
      intro r hr
      cases r with
      | none => rfl
      | some n =>
          by_cases hv : n.isValueNode
          · by_cases hc : n.children.isEmpty <;> simp [removeNode, hv, hc] at hr
          · simp only [getNode]
            rcases hval : n.value with _ | x
            · rfl
            · exact absurd (by simp [TrieNode.isValueNode, hval]) hv
  | cons c cs ih =>
      intro r hr
      cases r with
      | none => rfl
      | some n =>
          simp only [removeNode] at hr
          simp only [getNode]
          cases hf : findA c n.children with
          | none => exact getNode_none cs
          | some ch =>
              rw [hf] at hr
              cases hrem : removeNode (some ch) cs with
              | none => exact ih (some ch) hrem
              | some o' =>
                  rw [hrem] at hr
                  cases o' with
                  | none =>
                      rcases ite_eq_iff.1 hr with ⟨_, h'⟩ | ⟨_, h'⟩ <;>
                        exact absurd h' (by simp)
                  | some child => simp at hr

theorem getNode_removeNode_some : ∀ (k : List Nat) (r : Option TrieNode) (n' : TrieNode),
    sortedOpt r = true → removeNode r k = some (some n') → getNode (some n') k = none := by
  intro k
  induction k with
  | nil =>
      intro r n' hs hr
      cases r with
      | none => simp [removeNode] at hr
      | some n =>
          by_cases hv : n.isValueNode
          · by_cases hc : n.children.isEmpty
            · simp [removeNode, hv, hc] at hr
            · simp only [removeNode, if_pos hv, if_neg hc, Option.some.injEq] at hr
              subst hr
              rfl
          · simp [removeNode, hv] at hr
  | cons c cs ih =>
      intro r n' hs hr
      cases r with
      | none => simp [removeNode] at hr
      | some n =>
          simp only [removeNode] at hr
          cases hf : findA c n.children with
          | none =>
              rw [hf, removeNode_none_key] at hr
              exact absurd hr (by simp)
          | some ch =>
              rw [hf] at hr
              cases hrem : removeNode (some ch) cs with
              | none =>
                  rw [hrem] at hr
                  exact absurd hr (by simp)
              | some o' =>
                  rw [hrem] at hr
                  have hsn : sortedNode n = true := hs
                  have hkeys := (sortedNode_parts hsn).1
                  cases o' with
                  | none =>
                      by_cases hcond : ¬ n.isValueNode ∧ n.children.length = 1
                      · simp [hcond] at hr
                      · simp only [if_neg hcond, Option.some.injEq] at hr
                        subst hr
                        simp only [getNode]
                        rw [show (TrieNode.mk (eraseA c n.children) n.value).children =
                          eraseA c n.children from rfl, findA_eraseA_self c hkeys]
                        exact getNode_none cs
                  | some child =>
                      simp only [Option.some.injEq] at hr
                      subst hr
                      simp only [getNode, TrieNode.children, findA_insOrd_self]
                      have hch : sortedNode ch = true :=
                        sortedChildren_mem (sortedNode_parts hsn).2 (mem_of_findA_some hf)
                      exact ih (some ch) child hch hrem

theorem removeNode_putNode (v : Nat) : ∀ (k : List Nat) (r : Option TrieNode),
    sortedOpt r = true → leafOpt r = true → getNode r k = none →
    removeNode (some (putNode r k v)) k = some r := by
  intro k
  induction k with
  | nil =>
      intro r hs hl hg
      cases r with
      | none => rfl
      | some n =>
          obtain ⟨ncs, nv⟩ := n
          have hgv : nv = none := hg
          subst hgv
          have hnv : ¬ ncs.isEmpty = true := by
            intro hemp
            have h1 := (leafValNode_parts hl).1
            simp [TrieNode.children, TrieNode.value, hemp] at h1
          have hput : putNode (some (TrieNode.mk ncs none)) [] v =
              TrieNode.mk ncs (some v) := by
            simp [putNode, TrieNode.children]
          rw [hput]
          simp [removeNode, TrieNode.children, TrieNode.value, TrieNode.isValueNode, hnv]
  | cons c cs ih =>
      intro r hs hl hg
      cases r with
      | none =>
          have hput : putNode none (c :: cs) v =
              TrieNode.mk (insOrd c (putNode none cs v) []) none := by
            simp [putNode, findA]
          have hinner := ih none rfl rfl (getNode_none cs)
          rw [hput]
          simp [removeNode, TrieNode.children, TrieNode.value, TrieNode.isValueNode,
            insOrd, findA, hinner]
      | some n =>
          obtain ⟨ncs, nv⟩ := n
          have hsn : sortedNode (TrieNode.mk ncs nv) = true := hs
          have hln : leafValNode (TrieNode.mk ncs nv) = true := hl
          have hkeys : sortedKeys ncs = true := (sortedNode_parts hsn).1
          have hput : putNode (some (TrieNode.mk ncs nv)) (c :: cs) v =
              TrieNode.mk (insOrd c (putNode (findA c ncs) cs v) ncs) nv := by
            simp [putNode, TrieNode.children, TrieNode.value]
          rw [hput]
          simp only [getNode, TrieNode.children] at hg
          cases hf : findA c ncs with
          | none =>
              rw [hf] at hg
              have hinner := ih none rfl rfl (getNode_none cs)
              simp only [removeNode, TrieNode.children, findA_insOrd_self, hinner]
              have hcond : ¬ (¬ (TrieNode.mk (insOrd c (putNode none cs v) ncs)
                  nv).isValueNode = true ∧
                  (insOrd c (putNode none cs v) ncs).length = 1) := by
                rintro ⟨h1, h2⟩
                rw [length_insOrd_of_absent hf] at h2
                have hemp : ncs = [] := List.length_eq_zero.1 (by omega)
                subst hemp
                have h3 := (leafValNode_parts hln).1
                simp only [TrieNode.children, TrieNode.value, List.isEmpty_nil,
                  Bool.not_true, Bool.false_or] at h3
                exact h1 (by simp [TrieNode.isValueNode, TrieNode.value, h3])
              rw [if_neg hcond, eraseA_insOrd_absent hf]
              rfl
          | some ch =>
              rw [hf] at hg
              have hchS : sortedNode ch = true :=
                sortedChildren_mem (sortedNode_parts hsn).2 (mem_of_findA_some hf)
              have hchL : leafValNode ch = true :=
                leafValChildren_mem (leafValNode_parts hln).2 (mem_of_findA_some hf)
              have hinner := ih (some ch) hchS hchL hg
              simp only [removeNode, TrieNode.children, findA_insOrd_self, hinner]
              rw [insOrd_insOrd, insOrd_eq_self hkeys hf]
              rfl

/-! ### Preservation of well-formedness by the operations -/

theorem sortedNode_putNode (v : Nat) : ∀ (k : List Nat) (r : Option TrieNode),
    sortedOpt r = true → sortedNode (putNode r k v) = true := by
  intro k
  induction k with
  | nil =>
      intro r hs
      cases r with
      | none => simp [putNode, sortedNode_mk, sortedKeys, sortedChildren]
      | some n =>
          obtain ⟨ncs, nv⟩ := n
          have hp := sortedNode_parts (show sortedNode (TrieNode.mk ncs nv) = true from hs)
          have hk : sortedKeys ncs = true := hp.1
          have hc : sortedChildren ncs = true := hp.2
          have h1 : putNode (some (TrieNode.mk ncs nv)) [] v = TrieNode.mk ncs (some v) := by
            simp [putNode, TrieNode.children]
          rw [h1, sortedNode_mk, hk, hc]
          rfl
  | cons c cs ih =>
      intro r hs
      cases r with
      | none =>
          have hx := ih none rfl
          have h1 : putNode none (c :: cs) v =
              TrieNode.mk (insOrd c (putNode none cs v) []) none := by
            simp [putNode, findA]
          rw [h1, sortedNode_mk]
          rw [sortedKeys_insOrd (show sortedKeys ([] : List (Nat × TrieNode)) = true from by
              simp [sortedKeys]),
            sortedChildren_insOrd (show sortedChildren [] = true from rfl) hx]
          rfl
      | some n =>
          obtain ⟨ncs, nv⟩ := n
          have hp := sortedNode_parts (show sortedNode (TrieNode.mk ncs nv) = true from hs)
          have hk : sortedKeys ncs = true := hp.1
          have hc : sortedChildren ncs = true := hp.2
          have h1 : putNode (some (TrieNode.mk ncs nv)) (c :: cs) v =
              TrieNode.mk (insOrd c (putNode (findA c ncs) cs v) ncs) nv := by
            simp [putNode, TrieNode.children, TrieNode.value]
          rw [h1, sortedNode_mk]
          have hx : sortedNode (putNode (findA c ncs) cs v) = true := by
            cases hf : findA c ncs with
            | none => exact ih none rfl
            | some ch => exact ih (some ch) (sortedChildren_mem hc (mem_of_findA_some hf))
          rw [sortedKeys_insOrd hk, sortedChildren_insOrd hc hx]
          rfl

theorem isEmpty_insOrd_false {β : Type} (c : Nat) (v : β) (l : List (Nat × β)) :
    (insOrd c v l).isEmpty = false := by
  cases hi : insOrd c v l with
  | nil => exact absurd hi (insOrd_ne_nil c v l)
  | cons a b => rfl

theorem leafValNode_putNode (v : Nat) : ∀ (k : List Nat) (r : Option TrieNode),
    leafOpt r = true → leafValNode (putNode r k v) = true := by
  intro k
  induction k with
  | nil =>
      intro r hl
      cases r with
      | none => simp [putNode, leafValNode_mk, leafValChildren]
      | some n =>
          obtain ⟨ncs, nv⟩ := n
          have hp := leafValNode_parts (show leafValNode (TrieNode.mk ncs nv) = true from hl)
          have hc : leafValChildren ncs = true := hp.2
          have h1 : putNode (some (TrieNode.mk ncs nv)) [] v = TrieNode.mk ncs (some v) := by
            simp [putNode, TrieNode.children]
          rw [h1, leafValNode_mk, hc]
          simp
  | cons c cs ih =>
      intro r hl
      cases r with
      | none =>
          have hx := ih none rfl
          have h1 : putNode none (c :: cs) v =
              TrieNode.mk (insOrd c (putNode none cs v) []) none := by
            simp [putNode, findA]
          rw [h1, leafValNode_mk, isEmpty_insOrd_false,
            leafValChildren_insOrd (show leafValChildren [] = true from rfl) hx]
          rfl
      | some n =>
          obtain ⟨ncs, nv⟩ := n
          have hp := leafValNode_parts (show leafValNode (TrieNode.mk ncs nv) = true from hl)
          have hc : leafValChildren ncs = true := hp.2
          have h1 : putNode (some (TrieNode.mk ncs nv)) (c :: cs) v =
              TrieNode.mk (insOrd c (putNode (findA c ncs) cs v) ncs) nv := by
            simp [putNode, TrieNode.children, TrieNode.value]
          rw [h1, leafValNode_mk]
          have hx : leafValNode (putNode (findA c ncs) cs v) = true := by
            cases hf : findA c ncs with
            | none => exact ih none rfl
            | some ch => exact ih (some ch) (leafValChildren_mem hc (mem_of_findA_some hf))
          rw [isEmpty_insOrd_false, leafValChildren_insOrd hc hx]
          rfl

theorem sortedNode_removeNode : ∀ (k : List Nat) (r : Option TrieNode) (n' : TrieNode),
    sortedOpt r = true → removeNode r k = some (some n') → sortedNode n' = true := by
  intro k
  induction k with
  | nil =>
      intro r n' hs hr
      cases r with
      | none => simp [removeNode] at hr
      | some n =>
          obtain ⟨ncs, nv⟩ := n
          have hp := sortedNode_parts (show sortedNode (TrieNode.mk ncs nv) = true from hs)
          have hk : sortedKeys ncs = true := hp.1
          have hc : sortedChildren ncs = true := hp.2
          by_cases hv : (TrieNode.mk ncs nv).isValueNode = true
          · by_cases hcp : ncs.isEmpty = true
            · rw [show removeNode (some (TrieNode.mk ncs nv)) [] = some none from by
                simp [removeNode, hv, TrieNode.children, hcp]] at hr
              exact absurd hr (by simp)
            · rw [show removeNode (some (TrieNode.mk ncs nv)) [] =
                  some (some (TrieNode.mk ncs none)) from by
                simp [removeNode, hv, TrieNode.children, hcp]] at hr
              simp only [Option.some.injEq] at hr
              subst hr
              rw [sortedNode_mk, hk, hc]
              rfl
          · rw [show removeNode (some (TrieNode.mk ncs nv)) [] = none from by
              simp [removeNode, hv]] at hr
            exact absurd hr (by simp)
  | cons c cs ih =>
      intro r n' hs hr
      cases r with
      | none => simp [removeNode] at hr
      | some n =>
          obtain ⟨ncs, nv⟩ := n
          have hp := sortedNode_parts (show sortedNode (TrieNode.mk ncs nv) = true from hs)
          have hk : sortedKeys ncs = true := hp.1
          have hc : sortedChildren ncs = true := hp.2
          have hstep : removeNode (some (TrieNode.mk ncs nv)) (c :: cs) =
              match removeNode (findA c ncs) cs with
              | none => none
              | some (some child) =>
                  some (some (TrieNode.mk (insOrd c child ncs) nv))
              | some none =>
                  if ¬ (TrieNode.mk ncs nv).isValueNode ∧ ncs.length = 1 then some none
                  else some (some (TrieNode.mk (eraseA c ncs) nv)) := by
            simp only [removeNode, TrieNode.children, TrieNode.value]
          rw [hstep] at hr
          cases hf : findA c ncs with
          | none =>
              rw [hf, removeNode_none_key] at hr
              exact absurd hr (by simp)
          | some ch =>
              rw [hf] at hr
              have hchS : sortedNode ch = true :=
                sortedChildren_mem hc (mem_of_findA_some hf)
              cases hrem : removeNode (some ch) cs with
              | none =>
                  rw [hrem] at hr
                  exact absurd hr (by simp)
              | some o =>
                  rw [hrem] at hr
                  cases o with
                  | some child =>
                      simp only [Option.some.injEq] at hr
                      subst hr
                      rw [sortedNode_mk, sortedKeys_insOrd hk,
                        sortedChildren_insOrd hc (ih (some ch) child hchS hrem)]
                      rfl
                  | none =>
                      rcases ite_eq_iff.1 hr with ⟨_, h'⟩ | ⟨_, h'⟩
                      · exact absurd h' (by simp)
                      · simp only [Option.some.injEq] at h'
                        subst h'
                        rw [sortedNode_mk, sortedKeys_eraseA hk, sortedChildren_eraseA hc]
                        rfl

theorem leafValNode_removeNode : ∀ (k : List Nat) (r : Option TrieNode) (n' : TrieNode),
    leafOpt r = true → removeNode r k = some (some n') → leafValNode n' = true := by
  intro k
  induction k with
  | nil =>
      intro r n' hl hr
      cases r with
      | none => simp [removeNode] at hr
      | some n =>
          obtain ⟨ncs, nv⟩ := n
          have hp := leafValNode_parts (show leafValNode (TrieNode.mk ncs nv) = true from hl)
          have hc : leafValChildren ncs = true := hp.2
          by_cases hv : (TrieNode.mk ncs nv).isValueNode = true
          · by_cases hcp : ncs.isEmpty = true
            · rw [show removeNode (some (TrieNode.mk ncs nv)) [] = some none from by
                simp [removeNode, hv, TrieNode.children, hcp]] at hr
              exact absurd hr (by simp)
            · rw [show removeNode (some (TrieNode.mk ncs nv)) [] =
                  some (some (TrieNode.mk ncs none)) from by
                simp [removeNode, hv, TrieNode.children, hcp]] at hr
              simp only [Option.some.injEq] at hr
              subst hr
              rw [leafValNode_mk, hc]
              simp at hcp ⊢
              simp [hcp]
          · rw [show removeNode (some (TrieNode.mk ncs nv)) [] = none from by
              simp [removeNode, hv]] at hr
            exact absurd hr (by simp)
  | cons c cs ih =>
      intro r n' hl hr
      cases r with
      | none => simp [removeNode] at hr
      | some n =>
          obtain ⟨ncs, nv⟩ := n
          have hp := leafValNode_parts (show leafValNode (TrieNode.mk ncs nv) = true from hl)
          have hc : leafValChildren ncs = true := hp.2
          have hstep : removeNode (some (TrieNode.mk ncs nv)) (c :: cs) =
              match removeNode (findA c ncs) cs with
              | none => none
              | some (some child) =>
                  some (some (TrieNode.mk (insOrd c child ncs) nv))
              | some none =>
                  if ¬ (TrieNode.mk ncs nv).isValueNode ∧ ncs.length = 1 then some none
                  else some (some (TrieNode.mk (eraseA c ncs) nv)) := by
            simp only [removeNode, TrieNode.children, TrieNode.value]
          rw [hstep] at hr
          cases hf : findA c ncs with
          | none =>
              rw [hf, removeNode_none_key] at hr
              exact absurd hr (by simp)
          | some ch =>
              rw [hf] at hr
              have hchL : leafValNode ch = true :=
                leafValChildren_mem hc (mem_of_findA_some hf)
              cases hrem : removeNode (some ch) cs with
              | none =>
                  rw [hrem] at hr
                  exact absurd hr (by simp)
              | some o =>
                  rw [hrem] at hr
                  cases o with
                  | some child =>
                      simp only [Option.some.injEq] at hr
                      subst hr
                      rw [leafValNode_mk, isEmpty_insOrd_false,
                        leafValChildren_insOrd hc (ih (some ch) child hchL hrem)]
                      rfl
                  | none =>
                      rcases ite_eq_iff.1 hr with ⟨_, h'⟩ | ⟨hcond, h'⟩
                      · exact absurd h' (by simp)
                      · simp only [Option.some.injEq] at h'
                        subst h'
                        rw [leafValNode_mk, leafValChildren_eraseA hc]
                        by_cases hvs : nv.isSome = true
                        · simp only [TrieNode.value, hvs, Bool.or_true, Bool.true_and]
                        · have hlen : ncs.length ≠ 1 := by
                            intro h1
                            exact hcond ⟨by simp [TrieNode.isValueNode, TrieNode.value, hvs],
                              h1⟩
                          have hpres : ncs.length ≥ 1 := by
                            have := mem_of_findA_some hf
                            cases ncs with
                            | nil => simp at this
                            | cons a b => simp
                          have herase := length_eraseA_of_present hf
                          have hne : (eraseA c ncs).length ≠ 0 := by omega
                          have : (eraseA c ncs).isEmpty = false := by
                            cases he : eraseA c ncs with
                            | nil => exact absurd (by rw [he]; rfl) hne
                            | cons a b => rfl
                          rw [this]
                          simp

/-! ### Reachable tries and trie-level invariants -/

/-- An abstract trie operation, for quantifying over operation sequences. -/
inductive TrieOp : Type where
  | put : List Nat → Nat → TrieOp
  | rem : List Nat → TrieOp

def applyOp (t : Trie) : TrieOp → Trie
  | .put k v => t.Put k v
  | .rem k => t.Remove k

def applyOps (t : Trie) (ops : List TrieOp) : Trie :=
  ops.foldl applyOp t

/-- Canonical representation and spec invariants: every children map is
sorted and no non-value leaf exists. -/
def Trie.WellFormed (t : Trie) : Bool := sortedOpt t.root && leafOpt t.root

theorem wellFormed_Put (t : Trie) (k : List Nat) (v : Nat) (h : t.WellFormed = true) :
    (t.Put k v).WellFormed = true := by
  obtain ⟨r⟩ := t
  obtain ⟨hs, hl⟩ := band_true_elim h
  rw [Put_eq_putNode]
  have h1 : sortedNode (putNode r (stripKey k) v) = true := sortedNode_putNode v _ r hs
  have h2 : leafValNode (putNode r (stripKey k) v) = true := leafValNode_putNode v _ r hl
  simp [Trie.WellFormed, sortedOpt, leafOpt, h1, h2]

theorem wellFormed_Remove (t : Trie) (k : List Nat) (h : t.WellFormed = true) :
    (t.Remove k).WellFormed = true := by
  obtain ⟨r⟩ := t
  obtain ⟨hs, hl⟩ := band_true_elim h
  rw [Remove_eq_removeNode]
  cases hrem : removeNode r (stripKey k) with
  | none => simpa [Trie.WellFormed, remInterp] using h
  | some o =>
      cases o with
      | none => simp [Trie.WellFormed, remInterp, sortedOpt, leafOpt]
      | some n' =>
          have h1 := sortedNode_removeNode _ r n' hs hrem
          have h2 := leafValNode_removeNode _ r n' hl hrem
          simp [Trie.WellFormed, remInterp, sortedOpt, leafOpt, h1, h2]

theorem wellFormed_applyOps (ops : List TrieOp) : ∀ t : Trie, t.WellFormed = true →
    (applyOps t ops).WellFormed = true := by
  induction ops with
  | nil => intro t h; exact h
  | cons op rest ih =>
      intro t h
      cases op with
      | put k v => exact ih _ (wellFormed_Put t k v h)
      | rem k => exact ih _ (wellFormed_Remove t k h)

theorem pruneUp_eq_zero (path : List TrieNode) : ∀ s : Nat, s ≤ path.length →
    (∀ i, i < s → ¬ (path.getD i default).isValueNode = true ∧
      (path.getD i default).children.length = 1) →
    pruneUp path s = 0 := by
  intro s
  induction s with
  | zero => intro _ _; rfl
  | succ m ih =>
      intro hle hall
      rw [pruneUp_succ]
      have hlt : m < path.length := by omega
      have hm : path[m]? = some (path.getD m default) := by
        rw [List.getElem?_eq_getElem hlt, List.getD_eq_getElem path default hlt]
      rw [hm]
      show (if ¬ (path.getD m default).isValueNode = true ∧
          (path.getD m default).children.length = 1 then pruneUp path m else m + 1) = 0
      rw [if_pos (hall m (by omega))]
      exact ih (by omega) (fun i hi => hall i (by omega))

/-! ### Claim theorems for the trie -/

/-- C6 counterexample: the claim "t.Put(k, v).Remove(k) equals the
original trie t" is false when `t` already stores a value at `k`.  With
`t = empty.Put([7], 1)`, the trie `t.Put([7], 2).Remove([7])` is the empty
trie, not `t`. -/
theorem trie_put_remove_counterexample :
    ((Trie.empty.Put [7] 1).Put [7] 2).Remove [7] ≠ Trie.empty.Put [7] 1 := by
  intro hcontra
  have h := congrArg (fun t => Trie.Get t [7]) hcontra
  simp only at h
  have h1 : (((Trie.empty.Put [7] 1).Put [7] 2).Remove [7]).Get [7] = none := by decide
  have h2 : (Trie.empty.Put [7] 1).Get [7] = some 1 := by decide
  rw [h1, h2] at h
  exact absurd h (by simp)

/-- C6 (amended): for every well-formed trie `t` (children maps in the
canonical sorted representation and no non-value leaves, as holds for
every trie built by `Put`/`Remove` from the empty trie), `Put(k,v).Get(k)`
returns the stored `v`, `Remove(k).Get(k)` returns null, and
`Put(k,v).Remove(k)` equals `t` structurally whenever `t` holds no value
at `k`. -/
theorem trie_algebra_spec (t : Trie) (k : List Nat) (v : Nat)
    (hwf : t.WellFormed = true) :
    (t.Put k v).Get k = some v ∧
    (t.Remove k).Get k = none ∧
    (t.Get k = none → (t.Put k v).Remove k = t) := by
  obtain ⟨r⟩ := t
  obtain ⟨hs, hl⟩ := band_true_elim hwf
  refine ⟨?_, ?_, ?_⟩
  · rw [Put_eq_putNode, Get_eq_getNode]
    exact getNode_putNode v (stripKey k) r
  · rw [Remove_eq_removeNode, Get_eq_getNode]
    cases hrem : removeNode r (stripKey k) with
    | none =>
        simp only [remInterp]
        exact getNode_of_removeNode_none _ r hrem
    | some o =>
        cases o with
        | none =>
            simp only [remInterp]
            exact getNode_none _
        | some n' =>
            simp only [remInterp]
            exact getNode_removeNode_some _ r n' hs hrem
  · intro hget
    rw [Get_eq_getNode] at hget
    rw [Put_eq_putNode, Remove_eq_removeNode,
      removeNode_putNode v (stripKey k) r hs hl hget]
    rfl

/-- Witness for the amended C6 theorem at a concrete input. -/
theorem trie_algebra_spec_witness :
    Trie.WellFormed Trie.empty = true ∧ Trie.Get Trie.empty [7] = none ∧
    (Trie.empty.Put [7] 5).Get [7] = some 5 ∧
    (Trie.empty.Remove [7]).Get [7] = none ∧
    (Trie.empty.Put [7] 5).Remove [7] = Trie.empty :=
  ⟨by decide, by decide,
    (trie_algebra_spec Trie.empty [7] 5 (by decide)).1,
    (trie_algebra_spec Trie.empty [7] 5 (by decide)).2.1,
    (trie_algebra_spec Trie.empty [7] 5 (by decide)).2.2 (by decide)⟩

/-- C7: every trie reachable from the empty trie by `Put`/`Remove` has no
non-value leaf; and removing a key whose terminal is a childless value
node while every proper ancestor on the path is a non-value node with
exactly one child prunes all the way to the root, yielding the empty
trie. -/
theorem trie_no_nonvalue_leaf :
    (∀ ops : List TrieOp, leafOpt (applyOps Trie.empty ops).root = true) ∧
    (∀ (t : Trie) (k : List Nat),
      (t.FindPath (stripKey k)).length = (stripKey k).length + 1 →
      ((t.FindPath (stripKey k)).getLastD default).isValueNode = true →
      ((t.FindPath (stripKey k)).getLastD default).children = [] →
      (∀ i, i < (t.FindPath (stripKey k)).length - 1 →
        ¬ ((t.FindPath (stripKey k)).getD i default).isValueNode = true ∧
          ((t.FindPath (stripKey k)).getD i default).children.length = 1) →
      t.Remove k = ⟨none⟩) := by
  constructor
  · intro ops
    have h := wellFormed_applyOps ops Trie.empty (by decide)
    exact (band_true_elim h).2
  · intro t k h1 h2 h3 hall
    obtain ⟨r⟩ := t
    have hguard : ¬ ((Trie.FindPath ⟨r⟩ (stripKey k)).length ≠ (stripKey k).length + 1 ∨
        ¬ ((Trie.FindPath ⟨r⟩ (stripKey k)).getLastD default).isValueNode = true) := by
      rintro (ha | hb)
      · exact ha h1
      · exact hb h2
    have hre : removeViaPath r (stripKey k) = none := by
      simp only [removeViaPath]
      rw [if_neg hguard]
      simp only [removeRebuild]
      rw [if_pos (show ((Trie.FindPath ⟨r⟩ (stripKey k)).getLastD
          default).children.isEmpty = true from by rw [h3]; rfl)]
      rw [pruneUp_eq_zero _ _ (by omega) hall]
      rfl
    show Trie.Remove ⟨r⟩ k = ⟨none⟩
    rw [Trie.Remove, hre]

/-- Witness for C7 at concrete inputs. -/
theorem trie_no_nonvalue_leaf_witness :
    leafOpt (applyOps Trie.empty [TrieOp.put [7] 1, TrieOp.rem [7]]).root = true ∧
    (Trie.empty.Put [7] 1).Remove [7] = ⟨none⟩ :=
  ⟨trie_no_nonvalue_leaf.1 [TrieOp.put [7] 1, TrieOp.rem [7]],
   trie_no_nonvalue_leaf.2 (Trie.empty.Put [7] 1) [7] (by decide) (by decide) (by rfl)
     (by decide)⟩

/-! ### Heap-level (pointer) model of the trie, for the immutability claim

The C++ trie nodes live behind `shared_ptr`s.  To state that `Put` and
`Remove` never mutate a node reachable from the receiver, we model the
heap explicitly: nodes hold child ADDRESSES, a store maps addresses to
nodes, and the operations translate the C++ at the pointer level —
`Clone()` copies a node value (sharing the child addresses),
`make_shared` allocates a fresh address, and the linking loop mutates
only the freshly allocated nodes, so the resulting store extends the old
one with fresh bindings only. -/

structure HNode : Type where
  children : List (Nat × Nat)
  value : Option Nat
deriving DecidableEq, Repr

def emptyH : HNode := ⟨[], none⟩

/-- The allocation store: bound addresses (all below `next`) and the next
fresh address. -/
structure Store : Type where
  next : Nat
  mem : List (Nat × HNode)
deriving DecidableEq, Repr

def lookupH (s : Store) (a : Nat) : HNode := (findA a s.mem).getD emptyH

/-- `Trie::FindPath` at the pointer level: the addresses of the nodes
along the key. -/
def hFindPathFrom (s : Store) : Nat → List Nat → List Nat
  | _, [] => []
  | a, c :: cs =>
      match findA c (lookupH s a).children with
      | some b => b :: hFindPathFrom s b cs
      | none => []

def hFindPath (s : Store) (r : Option Nat) (key : List Nat) : List Nat :=
  match r with
  | none => []
  | some a => a :: hFindPathFrom s a key

/-- `Trie::Get` at the pointer level. -/
def hGet (s : Store) (r : Option Nat) (key0 : List Nat) : Option Nat :=
  let key := stripKey key0
  let path := hFindPath s r key
  if path.length = key.length + 1 then (lookupH s (path.getLastD 0)).value else none

/-- The linking loop at the pointer level: node `i` of the freshly
allocated row (to live at address `next + i`) receives the child edge
`key[i] ↦ next + i + 1`; the final node is left as built. -/
def hLink (next : Nat) (key : List Nat) (all : List HNode) : List HNode :=
  (List.range all.length).map fun i =>
    let n := all.getD i emptyH
    if i + 1 < all.length then ⟨insOrd (key.getD i 0) (next + i + 1) n.children, n.value⟩
    else n

/-- Allocate the linked row of nodes at the fresh addresses
`next, next+1, …` (`make_shared`): the store is extended with the fresh
bindings only, and the new root is address `next`. -/
def hAlloc (s : Store) (key : List Nat) (all : List HNode) : Store × Option Nat :=
  let linked := hLink s.next key all
  let bindings := (List.range all.length).map fun i => (s.next + i, linked.getD i emptyH)
  (⟨s.next + all.length, bindings ++ s.mem⟩, some s.next)

/-- `Trie::Put` at the pointer level: clones of the path nodes
(`Clone()` copies the children map, sharing the child addresses) and
fresh plain nodes where the path ran out, a value node at the terminus,
then link and allocate. -/
def hPut (s : Store) (r : Option Nat) (key0 : List Nat) (v : Nat) : Store × Option Nat :=
  let key := stripKey key0
  let path := hFindPath s r key
  let newNodes : List HNode :=
    (List.range key.length).map fun i =>
      match path[i]? with
      | some a => lookupH s a
      | none => emptyH
  let last : HNode :=
    if path.length = key.length + 1 then
      ⟨(lookupH s (path.getLastD 0)).children, some v⟩
    else ⟨[], some v⟩
  hAlloc s key (newNodes ++ [last])

/-- The pruning loop of `Trie::Remove` over the looked-up path nodes. -/
def hPruneUp (nodes : List HNode) : Nat → Nat
  | 0 => 0
  | s + 1 =>
      match nodes[s]? with
      | some n =>
          if ¬ n.value.isSome ∧ n.children.length = 1 then hPruneUp nodes s else s + 1
      | none => s + 1

/-- `Trie::Remove` at the pointer level: the unchanged and fully-pruned
branches allocate nothing; the rebuilding branch allocates the retained
clones at fresh addresses and links them as in `hPut`. -/
def hRemove (s : Store) (r : Option Nat) (key0 : List Nat) : Store × Option Nat :=
  let key := stripKey key0
  let path := hFindPath s r key
  let nodes := path.map (lookupH s)
  if path.length ≠ key.length + 1 ∨ ¬ (lookupH s (path.getLastD 0)).value.isSome then
    (s, r)
  else
    let sum : Nat :=
      if (lookupH s (path.getLastD 0)).children.isEmpty then hPruneUp nodes (path.length - 1)
      else path.length
    if sum = 0 then (s, none)
    else
      let last : HNode :=
        if sum = key.length + 1 then ⟨(nodes.getD (sum - 1) emptyH).children, none⟩
        else
          ⟨eraseA (key.getD (sum - 1) 0) (nodes.getD (sum - 1) emptyH).children,
            (nodes.getD (sum - 1) emptyH).value⟩
      hAlloc s key ((List.range (sum - 1)).map (fun i => nodes.getD i emptyH) ++ [last])

/-- Heap-level trie operation sequences. -/
inductive HOp : Type where
  | put : List Nat → Nat → HOp
  | rem : List Nat → HOp

def applyHOp (sr : Store × Option Nat) : HOp → Store × Option Nat
  | .put k v => hPut sr.1 sr.2 k v
  | .rem k => hRemove sr.1 sr.2 k

def applyHOps (sr : Store × Option Nat) (ops : List HOp) : Store × Option Nat :=
  ops.foldl applyHOp sr

/-- Store well-formedness: all bound addresses and all child addresses
are below `next`. -/
def storeWF (s : Store) : Bool :=
  s.mem.all fun p => decide (p.1 < s.next) && p.2.children.all fun q => decide (q.2 < s.next)

def rootOK (s : Store) (r : Option Nat) : Bool :=
  match r with
  | none => true
  | some a => decide (a < s.next)

/-! ### The frame property: operations only extend the store -/

theorem findA_append_fresh {β : Type} {a : Nat} {l₁ l₂ : List (Nat × β)}
    (h : ∀ p ∈ l₁, a ≠ p.1) : findA a (l₁ ++ l₂) = findA a l₂ := by
  induction l₁ with
  | nil => rfl
  | cons hd tl ih =>
      obtain ⟨c, v⟩ := hd
      have hne : a ≠ c := h (c, v) (List.mem_cons_self _ _)
      simp only [List.cons_append, findA, if_neg hne]
      exact ih fun p hp => h p (List.mem_cons_of_mem _ hp)

theorem hAlloc_mem (s : Store) (key : List Nat) (all : List HNode) :
    ∃ bs, (hAlloc s key all).1.mem = bs ++ s.mem ∧ (∀ p ∈ bs, s.next ≤ p.1) := by
  refine ⟨_, rfl, ?_⟩
  intro p hp
  obtain ⟨i, _, hpi⟩ := List.mem_map.1 hp
  rw [← hpi]
  exact Nat.le_add_right _ _

theorem hAlloc_next (s : Store) (key : List Nat) (all : List HNode) :
    s.next ≤ (hAlloc s key all).1.next := Nat.le_add_right _ _

theorem lookupH_children_lt {s : Store} (hwf : storeWF s = true) (a : Nat) :
    ∀ p ∈ (lookupH s a).children, p.2 < s.next := by
  intro p hp
  rw [lookupH] at hp
  cases hf : findA a s.mem with
  | none =>
      rw [hf] at hp
      simp [emptyH] at hp
  | some n =>
      rw [hf] at hp
      have hmem := mem_of_findA_some hf
      have h1 := (List.all_eq_true.1 hwf) _ hmem
      obtain ⟨_, h2⟩ := band_true_elim h1
      exact of_decide_eq_true ((List.all_eq_true.1 h2) _ hp)

theorem storeWF_hAlloc {s : Store} (key : List Nat) (all : List HNode)
    (hwf : storeWF s = true)
    (hall : ∀ n ∈ all, ∀ p ∈ n.children, p.2 < s.next) :
    storeWF (hAlloc s key all).1 = true := by
  rw [storeWF, List.all_eq_true]
  intro q hq
  have hnext : (hAlloc s key all).1.next = s.next + all.length := rfl
  rcases List.mem_append.1 hq with hnew | hold
  · obtain ⟨i, hi, hqi⟩ := List.mem_map.1 hnew
    rw [List.mem_range] at hi
    rw [← hqi]
    rw [Bool.and_eq_true]
    constructor
    · simp only [hnext]
      exact decide_eq_true (by omega)
    · rw [List.all_eq_true]
      intro p hp
      -- p is a child of the linked node i
      have hlink : (hLink s.next key all).getD i emptyH =
          (if i + 1 < all.length then
            ⟨insOrd (key.getD i 0) (s.next + i + 1) (all.getD i emptyH).children,
              (all.getD i emptyH).value⟩
          else all.getD i emptyH) := by
        rw [hLink]
        rw [List.getD_eq_getElem?_getD, List.getElem?_map,
          List.getElem?_range hi]
        rfl
      have hbase : ∀ p ∈ (all.getD i emptyH).children, p.2 < s.next := by
        intro p hp
        have : all.getD i emptyH ∈ all := by
          rw [List.getD_eq_getElem all emptyH (by omega)]
          exact List.getElem_mem (by omega)
        exact hall _ this p hp
      rw [hlink] at hp
      by_cases hcase : i + 1 < all.length
      · rw [if_pos hcase] at hp
        rcases mem_insOrd hp with h' | h'
        · rw [h']
          simp only [hnext]
          exact decide_eq_true (by omega)
        · have := hbase p h'
          simp only [hnext]
          exact decide_eq_true (by omega)
      · rw [if_neg hcase] at hp
        have := hbase p hp
        simp only [hnext]
        exact decide_eq_true (by omega)
  · have h1 := (List.all_eq_true.1 hwf) _ hold
    obtain ⟨h2, h3⟩ := band_true_elim h1
    rw [Bool.and_eq_true]
    constructor
    · have := of_decide_eq_true h2
      simp only [hnext]
      exact decide_eq_true (by omega)
    · rw [List.all_eq_true]
      intro p hp
      have := of_decide_eq_true ((List.all_eq_true.1 h3) _ hp)
      simp only [hnext]
      exact decide_eq_true (by omega)

theorem hAlloc_agree (s : Store) (key : List Nat) (all : List HNode) {a : Nat}
    (ha : a < s.next) : findA a (hAlloc s key all).1.mem = findA a s.mem := by
  obtain ⟨bs, hmem, hfresh⟩ := hAlloc_mem s key all
  rw [hmem]
  exact findA_append_fresh fun p hp => by have := hfresh p hp; omega

theorem storeWF_hPut {s : Store} (r : Option Nat) (key : List Nat) (v : Nat)
    (hwf : storeWF s = true) : storeWF (hPut s r key v).1 = true := by
  simp only [hPut]
  refine storeWF_hAlloc _ _ hwf ?_
  intro n hn p hp
  rcases List.mem_append.1 hn with h1 | h2
  · obtain ⟨i, _, hni⟩ := List.mem_map.1 h1
    rw [← hni] at hp
    cases hpi : (hFindPath s r (stripKey key))[i]? with
    | some a =>
        rw [hpi] at hp
        exact lookupH_children_lt hwf a p hp
    | none =>
        rw [hpi] at hp
        simp [emptyH] at hp
  · rw [List.mem_singleton] at h2
    subst h2
    by_cases hc : (hFindPath s r (stripKey key)).length = (stripKey key).length + 1
    · rw [if_pos hc] at hp
      exact lookupH_children_lt hwf _ p hp
    · rw [if_neg hc] at hp
      simp at hp

theorem mapLookup_getD_children_lt {s : Store} (hwf : storeWF s = true)
    (path : List Nat) (i : Nat) :
    ∀ p ∈ ((path.map (lookupH s)).getD i emptyH).children, p.2 < s.next := by
  by_cases hi : i < (path.map (lookupH s)).length
  · rw [List.getD_eq_getElem _ _ hi, List.getElem_map]
    exact lookupH_children_lt hwf _
  · rw [List.getD_eq_default _ _ (by omega)]
    intro p hp
    simp [emptyH] at hp

theorem storeWF_hRemove {s : Store} (r : Option Nat) (key : List Nat)
    (hwf : storeWF s = true) : storeWF (hRemove s r key).1 = true := by
  have hall : ∀ (m : Nat) (last : HNode),
      (∀ p ∈ last.children, p.2 < s.next) →
      ∀ n ∈ (List.range m).map
          (fun i => ((hFindPath s r (stripKey key)).map (lookupH s)).getD i emptyH) ++
            [last],
        ∀ p ∈ n.children, p.2 < s.next := by
    intro m last hlast n hn p hp
    rcases List.mem_append.1 hn with h1 | h2
    · obtain ⟨i, _, hni⟩ := List.mem_map.1 h1
      rw [← hni] at hp
      exact mapLookup_getD_children_lt hwf _ i p hp
    · rw [List.mem_singleton] at h2
      subst h2
      exact hlast p hp
  simp only [hRemove]
  split
  · exact hwf
  · split
    · split
      · exact hwf
      · refine storeWF_hAlloc _ _ hwf (hall _ _ ?_)
        split
        · exact mapLookup_getD_children_lt hwf _ _
        · intro p hp
          exact mapLookup_getD_children_lt hwf _ _ p ((eraseA_sublist _ _).mem hp)
    · split
      · exact hwf
      · refine storeWF_hAlloc _ _ hwf (hall _ _ ?_)
        split
        · exact mapLookup_getD_children_lt hwf _ _
        · intro p hp
          exact mapLookup_getD_children_lt hwf _ _ p ((eraseA_sublist _ _).mem hp)

theorem applyHOp_frame (op : HOp) (s : Store) (r : Option Nat) (hwf : storeWF s = true) :
    storeWF (applyHOp (s, r) op).1 = true ∧ s.next ≤ (applyHOp (s, r) op).1.next ∧
    (∀ a, a < s.next → findA a (applyHOp (s, r) op).1.mem = findA a s.mem) := by
  cases op with
  | put k v =>
      refine ⟨storeWF_hPut r k v hwf, ?_, ?_⟩
      · simp only [applyHOp, hPut]
        exact hAlloc_next _ _ _
      · intro a ha
        simp only [applyHOp, hPut]
        exact hAlloc_agree _ _ _ ha
  | rem k =>
      refine ⟨storeWF_hRemove r k hwf, ?_, ?_⟩
      · simp only [applyHOp, hRemove]
        split
        · exact Nat.le_refl _
        · split
          · split
            · exact Nat.le_refl _
            · exact hAlloc_next _ _ _
          · split
            · exact Nat.le_refl _
            · exact hAlloc_next _ _ _
      · intro a ha
        simp only [applyHOp, hRemove]
        split
        · rfl
        · split
          · split
            · rfl
            · exact hAlloc_agree _ _ _ ha
          · split
            · rfl
            · exact hAlloc_agree _ _ _ ha

theorem applyHOps_frame (ops : List HOp) : ∀ (s : Store) (r : Option Nat),
    storeWF s = true →
    storeWF (applyHOps (s, r) ops).1 = true ∧ s.next ≤ (applyHOps (s, r) ops).1.next ∧
    (∀ a, a < s.next → findA a (applyHOps (s, r) ops).1.mem = findA a s.mem) := by
  induction ops with
  | nil =>
      intro s r hwf
      exact ⟨hwf, Nat.le_refl _, fun a _ => rfl⟩
  | cons op rest ih =>
      intro s r hwf
      obtain ⟨hw1, hn1, hg1⟩ := applyHOp_frame op s r hwf
      have hsplit : applyHOps (s, r) (op :: rest) =
          applyHOps ((applyHOp (s, r) op).1, (applyHOp (s, r) op).2) rest := by
        simp only [applyHOps, List.foldl_cons]
      obtain ⟨hw2, hn2, hg2⟩ := ih (applyHOp (s, r) op).1 (applyHOp (s, r) op).2 hw1
      rw [hsplit]
      refine ⟨hw2, Nat.le_trans hn1 hn2, fun a ha => ?_⟩
      rw [hg2 a (by omega), hg1 a ha]

/-! ### Agreement of reads across store extension -/

theorem lookupH_agree {s s' : Store}
    (hagree : ∀ a, a < s.next → findA a s'.mem = findA a s.mem) {a : Nat}
    (ha : a < s.next) : lookupH s' a = lookupH s a := by
  simp [lookupH, hagree a ha]

theorem hFindPathFrom_agree {s s' : Store} (hwf : storeWF s = true)
    (hagree : ∀ a, a < s.next → findA a s'.mem = findA a s.mem) :
    ∀ (key : List Nat) (a : Nat), a < s.next →
      hFindPathFrom s' a key = hFindPathFrom s a key := by
  intro key
  induction key with
  | nil => intro a _; rfl
  | cons c cs ih =>
      intro a ha
      simp only [hFindPathFrom]
      rw [lookupH_agree hagree ha]
      cases hf : findA c (lookupH s a).children with
      | none => rfl
      | some b =>
          have hb : b < s.next := lookupH_children_lt hwf a (c, b) (mem_of_findA_some hf)
          show b :: hFindPathFrom s' b cs = b :: hFindPathFrom s b cs
          rw [ih b hb]

theorem hFindPathFrom_addr_lt {s : Store} (hwf : storeWF s = true) :
    ∀ (key : List Nat) (a : Nat), a < s.next →
      ∀ x ∈ hFindPathFrom s a key, x < s.next := by
  intro key
  induction key with
  | nil => intro a _ x hx; simp [hFindPathFrom] at hx
  | cons c cs ih =>
      intro a ha x hx
      simp only [hFindPathFrom] at hx
      cases hf : findA c (lookupH s a).children with
      | none => rw [hf] at hx; simp at hx
      | some b =>
          rw [hf] at hx
          have hb : b < s.next := lookupH_children_lt hwf a (c, b) (mem_of_findA_some hf)
          rcases List.mem_cons.1 hx with h' | h'
          · rw [h']; exact hb
          · exact ih b hb x h'

theorem hGet_agree (s s' : Store) (r : Option Nat) (k : List Nat)
    (hwf : storeWF s = true) (hroot : rootOK s r = true)
    (hagree : ∀ a, a < s.next → findA a s'.mem = findA a s.mem) :
    hGet s' r k = hGet s r k := by
  cases r with
  | none => simp [hGet, hFindPath]
  | some a =>
      have ha : a < s.next := of_decide_eq_true hroot
      have hpath : hFindPath s' (some a) (stripKey k) = hFindPath s (some a) (stripKey k) := by
        simp only [hFindPath]
        rw [hFindPathFrom_agree hwf hagree _ a ha]
      simp only [hGet]
      rw [hpath]
      by_cases hlen : (hFindPath s (some a) (stripKey k)).length = (stripKey k).length + 1
      · rw [if_pos hlen, if_pos hlen]
        have hmem : (hFindPath s (some a) (stripKey k)).getLastD 0 ∈
            hFindPath s (some a) (stripKey k) := by
          simp only [hFindPath, List.getLastD_cons]
          cases hfp : hFindPathFrom s a (stripKey k) with
          | nil => simp
          | cons y ys =>
              right
              rw [← hfp]
              have hne : hFindPathFrom s a (stripKey k) ≠ [] := by rw [hfp]; simp
              rw [List.getLastD_eq_getLast?]
              obtain ⟨z, hz⟩ := Option.isSome_iff_exists.1 (List.getLast?_isSome.2 hne)
              rw [hz]
              obtain ⟨hne2, hzz⟩ := List.mem_getLast?_eq_getLast (Option.mem_def.2 hz)
              rw [hzz]
              exact List.getLast_mem hne2
        have hlast_lt : (hFindPath s (some a) (stripKey k)).getLastD 0 < s.next := by
          rcases List.mem_cons.1 hmem with h' | h'
          · rw [h']; exact ha
          · exact hFindPathFrom_addr_lt hwf _ a ha _ h'
        rw [lookupH_agree hagree hlast_lt]
      · rw [if_neg hlen, if_neg hlen]

/-- C9: trie immutability.  `Put` and `Remove` at the pointer level only
allocate fresh nodes — the resulting store binds exactly the old
addresses to their old nodes plus fresh addresses — so after any sequence
of operations, reading any key through a previously published root
returns exactly what it returned before the sequence. -/
theorem htrie_immutability (ops : List HOp) (s₀ : Store) (r₀ : Option Nat)
    (k : List Nat) (hwf : storeWF s₀ = true) (hr : rootOK s₀ r₀ = true) :
    hGet (applyHOps (s₀, r₀) ops).1 r₀ k = hGet s₀ r₀ k := by
  obtain ⟨h1, h2, h3⟩ := applyHOps_frame ops s₀ r₀ hwf
  exact hGet_agree s₀ _ r₀ k hwf hr h3

/-- A concrete published trie version for the C9 witness. -/
def hStore1 : Store × Option Nat := hPut ⟨0, []⟩ none [7] 1

/-- Witness for C9 at concrete inputs. -/
theorem htrie_immutability_witness :
    storeWF hStore1.1 = true ∧ rootOK hStore1.1 hStore1.2 = true ∧
    hGet (applyHOps (hStore1.1, hStore1.2) [HOp.put [7] 2, HOp.rem [7]]).1 hStore1.2 [7] =
      hGet hStore1.1 hStore1.2 [7] :=
  ⟨by decide, by decide,
    htrie_immutability [HOp.put [7] 2, HOp.rem [7]] hStore1.1 hStore1.2 [7]
      (by decide) (by decide)⟩

/-! ### The LRU-K replacer (`src/buffer/lru_k_replacer.cpp`)

`node_store_` is a map from frame id to node, embedded as a list with
unique frame ids; `evict_queue_` is the multiset of the evictable nodes
ordered by the comparator, embedded implicitly: `Evict` selects the
comparator-minimum of the evictable nodes.  `current_timestamp_`,
`max_size_`, `k_` and `evictable_size_` are carried verbatim.  A C++
`throw` surfaces as a `some`-error first component with the state the
object holds afterwards. -/

structure LRUKNode : Type where
  fid : Nat
  history : List Nat
  isEvictable : Bool
deriving DecidableEq, Repr

inductive RepError : Type where
  | capacityExceeded
  | unknownFrame
  | notEvictable
deriving DecidableEq, Repr

structure LRUKReplacer : Type where
  nodeStore : List LRUKNode
  currentTimestamp : Nat
  maxSize : Nat
  k : Nat
  evictableSize : Nat
deriving DecidableEq, Repr

def findNode (ns : List LRUKNode) (fid : Nat) : Option LRUKNode :=
  match ns with
  | [] => none
  | n :: rest => if n.fid = fid then some n else findNode rest fid

def updateNode (ns : List LRUKNode) (fid : Nat) (f : LRUKNode → LRUKNode) :
    List LRUKNode :=
  match ns with
  | [] => []
  | n :: rest => if n.fid = fid then f n :: rest else n :: updateNode rest fid f

def eraseNode (ns : List LRUKNode) (fid : Nat) : List LRUKNode :=
  match ns with
  | [] => []
  | n :: rest => if n.fid = fid then rest else n :: eraseNode rest fid

/-- `history_.back()`: histories are kept newest first, so the back is
the oldest retained timestamp. -/
def historyBack (h : List Nat) : Nat := h.getLastD 0

/-- `LRUKReplacer::Comparator::operator()`: "`l` evicts before `r`". -/
def cmpLt (k : Nat) (l r : LRUKNode) : Bool :=
  if l.history.length = k ∧ r.history.length < k then false
  else if l.history.length < k ∧ r.history.length = k then true
  else decide (historyBack l.history < historyBack r.history)

def LRUKReplacer.init (numFrames k : Nat) : LRUKReplacer := ⟨[], 0, numFrames, k, 0⟩

/-- `LRUKReplacer::Evict`: `evict_queue_.begin()` is the
comparator-minimum of the evictable nodes; the chosen node is erased from
both the queue (implicit) and the node table, and the evictable counter
decremented.  Returns false (`none`) exactly when no evictable node
exists. -/
def LRUKReplacer.Evict (rep : LRUKReplacer) : Option Nat × LRUKReplacer :=
  match rep.nodeStore.filter (fun n => n.isEvictable) with
  | [] => (none, rep)
  | n :: rest =>
      let m := rest.foldl (fun best x => if cmpLt rep.k x best then x else best) n
      (some m.fid,
        { rep with nodeStore := eraseNode rep.nodeStore m.fid,
                   evictableSize := rep.evictableSize - 1 })

/-- `LRUKReplacer::RecordAccess`. -/
def LRUKReplacer.RecordAccess (rep : LRUKReplacer) (fid : Nat) :
    Option RepError × LRUKReplacer :=
  let ts := rep.currentTimestamp + 1
  match findNode rep.nodeStore fid with
  | some _ =>
      (none,
        { rep with currentTimestamp := ts,
                   nodeStore := updateNode rep.nodeStore fid fun n =>
                     let h := ts :: n.history
                     { n with history := if h.length > rep.k then h.dropLast else h } })
  | none =>
      if rep.nodeStore.length < rep.maxSize then
        (none,
          { rep with currentTimestamp := ts,
                     nodeStore := rep.nodeStore ++ [⟨fid, [ts], true⟩],
                     evictableSize := rep.evictableSize + 1 })
      else
        (some .capacityExceeded, { rep with currentTimestamp := ts })

/-- `LRUKReplacer::SetEvictable`. -/
def LRUKReplacer.SetEvictable (rep : LRUKReplacer) (fid : Nat) (e : Bool) :
    Option RepError × LRUKReplacer :=
  match findNode rep.nodeStore fid with
  | some node =>
      if node.isEvictable ≠ e then
        (none,
          { rep with
              nodeStore := updateNode rep.nodeStore fid fun n => { n with isEvictable := e },
              evictableSize := if e then rep.evictableSize + 1 else rep.evictableSize - 1 })
      else (none, rep)
  | none => (some .unknownFrame, rep)

/-- `LRUKReplacer::Remove`. -/
def LRUKReplacer.Remove (rep : LRUKReplacer) (fid : Nat) :
    Option RepError × LRUKReplacer :=
  match findNode rep.nodeStore fid with
  | some node =>
      if node.isEvictable then
        (none, { rep with nodeStore := eraseNode rep.nodeStore fid,
                          evictableSize := rep.evictableSize - 1 })
      else (some .notEvictable, rep)
  | none => (none, rep)

/-- `LRUKReplacer::Size`. -/
def LRUKReplacer.Size (rep : LRUKReplacer) : Nat := rep.evictableSize

/-! ### Node-table lemmas and the RecordAccess specification -/

theorem findNode_updateNode_self {ns : List LRUKNode} {fid : Nat} {n : LRUKNode}
    (f : LRUKNode → LRUKNode) (hf : ∀ m, (f m).fid = m.fid)
    (h : findNode ns fid = some n) : findNode (updateNode ns fid f) fid = some (f n) := by
  induction ns with
  | nil => simp [findNode] at h
  | cons hd tl ih =>
      by_cases hc : hd.fid = fid
      · simp only [findNode, if_pos hc] at h
        simp only [updateNode, if_pos hc, findNode, hf hd, if_pos hc]
        injection h with h
        rw [h]
      · simp only [findNode, if_neg hc] at h
        simp only [updateNode, if_neg hc, findNode, if_neg hc]
        exact ih h

theorem findNode_updateNode_ne {ns : List LRUKNode} {fid g : Nat}
    (f : LRUKNode → LRUKNode) (hf : ∀ m, (f m).fid = m.fid) (hg : g ≠ fid) :
    findNode (updateNode ns fid f) g = findNode ns g := by
  induction ns with
  | nil => rfl
  | cons hd tl ih =>
      by_cases hc : hd.fid = fid
      · have : (f hd).fid ≠ g := by rw [hf hd, hc]; exact fun h => hg h.symm
        simp only [updateNode, if_pos hc, findNode, if_neg this]
        have : hd.fid ≠ g := by rw [hc]; exact fun h => hg h.symm
        rw [if_neg this]
      · simp only [updateNode, if_neg hc, findNode]
        by_cases hd2 : hd.fid = g
        · rw [if_pos hd2, if_pos hd2]
        · rw [if_neg hd2, if_neg hd2]
          exact ih

theorem findNode_append_self {ns : List LRUKNode} {fid : Nat} {node : LRUKNode}
    (h : findNode ns fid = none) (hfid : node.fid = fid) :
    findNode (ns ++ [node]) fid = some node := by
  induction ns with
  | nil => simp [findNode, hfid]
  | cons hd tl ih =>
      by_cases hc : hd.fid = fid
      · simp [findNode, hc] at h
      · simp only [findNode, if_neg hc] at h
        simp only [List.cons_append, findNode, if_neg hc]
        exact ih h

theorem truncate_eq_take {h : List Nat} {k ts : Nat} (hlen : h.length ≤ k) :
    (if (ts :: h).length > k then (ts :: h).dropLast else ts :: h) =
      List.take k (ts :: h) := by
  by_cases hc : (ts :: h).length > k
  · rw [if_pos hc, List.dropLast_eq_take]
    have : (ts :: h).length - 1 = k := by simp at hc ⊢; omega
    rw [this]
  · rw [if_neg hc]
    have : (ts :: h).length ≤ k := by omega
    rw [List.take_of_length_le this]

/-- C8: `RecordAccess` bumps the global timestamp in every case; on an
existing node (whose history, as always in reachable states, holds at
most K entries) it succeeds, replacing the node's history by the new
timestamp consed on and truncated to at most K entries (newest first) and
leaving all other nodes unchanged; on an absent frame it creates an
evictable single-entry node when the table is below `max_size`, and
otherwise fails with `CAPACITY_EXCEEDED` leaving the node table
unchanged. -/
theorem recordAccess_spec (rep : LRUKReplacer) (fid : Nat) :
    (rep.RecordAccess fid).2.currentTimestamp = rep.currentTimestamp + 1 ∧
    (∀ n, findNode rep.nodeStore fid = some n → n.history.length ≤ rep.k →
      (rep.RecordAccess fid).1 = none ∧
      findNode (rep.RecordAccess fid).2.nodeStore fid =
        some { n with
          history := List.take rep.k ((rep.currentTimestamp + 1) :: n.history) } ∧
      (∀ g, g ≠ fid →
        findNode (rep.RecordAccess fid).2.nodeStore g = findNode rep.nodeStore g)) ∧
    (findNode rep.nodeStore fid = none → rep.nodeStore.length < rep.maxSize →
      (rep.RecordAccess fid).1 = none ∧
      findNode (rep.RecordAccess fid).2.nodeStore fid =
        some ⟨fid, [rep.currentTimestamp + 1], true⟩ ∧
      (rep.RecordAccess fid).2.evictableSize = rep.evictableSize + 1) ∧
    (findNode rep.nodeStore fid = none → ¬ rep.nodeStore.length < rep.maxSize →
      (rep.RecordAccess fid).1 = some RepError.capacityExceeded ∧
      (rep.RecordAccess fid).2.nodeStore = rep.nodeStore) := by
  refine ⟨?_, ?_, ?_, ?_⟩
  · simp only [LRUKReplacer.RecordAccess]
    cases hf : findNode rep.nodeStore fid with
    | some n => rfl
    | none =>
        by_cases hc : rep.nodeStore.length < rep.maxSize
        · rw [if_pos hc]
        · rw [if_neg hc]
  · intro n hf hlen
    have hfun : ∀ m : LRUKNode,
        ((fun x : LRUKNode => { x with history :=
          if ((rep.currentTimestamp + 1) :: x.history).length > rep.k then
            ((rep.currentTimestamp + 1) :: x.history).dropLast
          else (rep.currentTimestamp + 1) :: x.history }) m).fid = m.fid := fun m => rfl
    refine ⟨?_, ?_, ?_⟩
    · simp only [LRUKReplacer.RecordAccess, hf]
    · simp only [LRUKReplacer.RecordAccess, hf]
      rw [findNode_updateNode_self _ hfun hf, truncate_eq_take hlen]
    · intro g hg
      simp only [LRUKReplacer.RecordAccess, hf]
      exact findNode_updateNode_ne _ hfun hg
  · intro hf hc
    refine ⟨?_, ?_, ?_⟩
    · simp only [LRUKReplacer.RecordAccess, hf, if_pos hc]
    · simp only [LRUKReplacer.RecordAccess, hf, if_pos hc]
      exact findNode_append_self hf rfl
    · simp only [LRUKReplacer.RecordAccess, hf, if_pos hc]
  · intro hf hc
    refine ⟨?_, ?_⟩
    · simp only [LRUKReplacer.RecordAccess, hf, if_neg hc]
    · simp only [LRUKReplacer.RecordAccess, hf, if_neg hc]

/-- Witness for C8 at concrete inputs covering all three cases. -/
theorem recordAccess_spec_witness :
    (findNode (⟨[⟨0, [1], true⟩], 1, 2, 2, 1⟩ : LRUKReplacer).nodeStore 0 =
        some ⟨0, [1], true⟩ ∧
      ((⟨[⟨0, [1], true⟩], 1, 2, 2, 1⟩ : LRUKReplacer).RecordAccess 0).1 = none ∧
      findNode ((⟨[⟨0, [1], true⟩], 1, 2, 2, 1⟩ :
          LRUKReplacer).RecordAccess 0).2.nodeStore 0 = some ⟨0, [2, 1], true⟩) ∧
    (findNode (LRUKReplacer.init 2 2).nodeStore 0 = none ∧
      findNode ((LRUKReplacer.init 2 2).RecordAccess 0).2.nodeStore 0 =
        some ⟨0, [1], true⟩) ∧
    (findNode (⟨[⟨0, [1], true⟩], 1, 1, 2, 1⟩ : LRUKReplacer).nodeStore 1 = none ∧
      ((⟨[⟨0, [1], true⟩], 1, 1, 2, 1⟩ : LRUKReplacer).RecordAccess 1).1 =
        some RepError.capacityExceeded ∧
      ((⟨[⟨0, [1], true⟩], 1, 1, 2, 1⟩ : LRUKReplacer).RecordAccess 1).2.nodeStore =
        (⟨[⟨0, [1], true⟩], 1, 1, 2, 1⟩ : LRUKReplacer).nodeStore) :=
  ⟨⟨by decide,
    ((recordAccess_spec ⟨[⟨0, [1], true⟩], 1, 2, 2, 1⟩ 0).2.1 ⟨0, [1], true⟩
      (by decide) (by decide)).1,
    ((recordAccess_spec ⟨[⟨0, [1], true⟩], 1, 2, 2, 1⟩ 0).2.1 ⟨0, [1], true⟩
      (by decide) (by decide)).2.1⟩,
   ⟨by decide,
    ((recordAccess_spec (LRUKReplacer.init 2 2) 0).2.2.1 (by decide) (by decide)).2.1⟩,
   ⟨by decide,
    ((recordAccess_spec ⟨[⟨0, [1], true⟩], 1, 1, 2, 1⟩ 1).2.2.2 (by decide)
      (by decide)).1,
    ((recordAccess_spec ⟨[⟨0, [1], true⟩], 1, 1, 2, 1⟩ 1).2.2.2 (by decide)
      (by decide)).2⟩⟩

/-! ### The Evict selection property -/

theorem foldl_min_mem {α : Type} (lt : α → α → Bool) : ∀ (l : List α) (n : α),
    l.foldl (fun best y => if lt y best then y else best) n ∈ n :: l := by
  intro l
  induction l with
  | nil => intro n; simp
  | cons x xs ih =>
      intro n
      simp only [List.foldl_cons]
      rcases List.mem_cons.1 (ih (if lt x n then x else n)) with h | h
      · by_cases hc : lt x n = true
        · rw [if_pos hc] at h ⊢
          rw [h]
          exact List.mem_cons_of_mem _ (List.mem_cons_self _ _)
        · rw [if_neg hc] at h ⊢
          rw [h]
          exact List.mem_cons_self _ _
      · exact List.mem_cons_of_mem _ (List.mem_cons_of_mem _ h)

theorem foldl_min_least {α : Type} (lt : α → α → Bool) : ∀ (l : List α) (n : α),
    (∀ a b c, a ∈ n :: l → b ∈ n :: l → c ∈ n :: l →
      lt a b = true → lt b c = true → lt a c = true) →
    (∀ a b, a ∈ n :: l → b ∈ n :: l → a ≠ b → lt a b = true ∨ lt b a = true) →
    ∀ x ∈ n :: l,
      x = l.foldl (fun best y => if lt y best then y else best) n ∨
        lt (l.foldl (fun best y => if lt y best then y else best) n) x = true := by
  intro l
  induction l with
  | nil =>
      intro n _ _ x hx
      left
      simpa using hx
  | cons y ys ih =>
      intro n htrans hconn x hx
      simp only [List.foldl_cons]
      have hsub : ∀ a, a ∈ (if lt y n then y else n) :: ys → a ∈ n :: y :: ys := by
        intro a ha
        rcases List.mem_cons.1 ha with h | h
        · by_cases hc : lt y n = true
          · rw [if_pos hc] at h
            rw [h]
            exact List.mem_cons_of_mem _ (List.mem_cons_self _ _)
          · rw [if_neg hc] at h
            rw [h]
            exact List.mem_cons_self _ _
        · exact List.mem_cons_of_mem _ (List.mem_cons_of_mem _ h)
      have ih' := ih (if lt y n then y else n)
        (fun a b c ha hb hc => htrans a b c (hsub a ha) (hsub b hb) (hsub c hc))
        (fun a b ha hb => hconn a b (hsub a ha) (hsub b hb))
      have hmmem := foldl_min_mem lt ys (if lt y n then y else n)
      have hmmem2 : ys.foldl (fun best z => if lt z best then z else best)
          (if lt y n then y else n) ∈ n :: y :: ys := hsub _ hmmem
      have hn0 : n = ys.foldl (fun best z => if lt z best then z else best)
          (if lt y n then y else n) ∨
          lt (ys.foldl (fun best z => if lt z best then z else best)
            (if lt y n then y else n)) n = true := by
        by_cases hc : lt y n = true
        · have h1 := ih' y (by rw [if_pos hc]; exact List.mem_cons_self _ _)
          rcases h1 with h1 | h1
          · right
            rw [← h1]
            exact hc
          · right
            exact htrans _ y n hmmem2
              (List.mem_cons_of_mem _ (List.mem_cons_self _ _))
              (List.mem_cons_self _ _) h1 hc
        · exact ih' n (by rw [if_neg hc]; exact List.mem_cons_self _ _)
      have hy0 : y = ys.foldl (fun best z => if lt z best then z else best)
          (if lt y n then y else n) ∨
          lt (ys.foldl (fun best z => if lt z best then z else best)
            (if lt y n then y else n)) y = true := by
        by_cases hc : lt y n = true
        · exact ih' y (by rw [if_pos hc]; exact List.mem_cons_self _ _)
        · by_cases hxy : y = n
          · subst hxy
            exact hn0
          · have hlny : lt n y = true := by
              rcases hconn y n (List.mem_cons_of_mem _ (List.mem_cons_self _ _))
                  (List.mem_cons_self _ _) hxy with h | h
              · exact absurd h hc
              · exact h
            rcases hn0 with h | h
            · right
              rw [← h]
              exact hlny
            · right
              exact htrans _ n y hmmem2 (List.mem_cons_self _ _)
                (List.mem_cons_of_mem _ (List.mem_cons_self _ _)) h hlny
      rcases List.mem_cons.1 hx with h | h
      · rw [h]
        exact hn0
      rcases List.mem_cons.1 h with h2 | h2
      · rw [h2]
        exact hy0
      · exact ih' x (List.mem_cons_of_mem _ h2)

/-- Sort bucket of a node: nodes with fewer than K recorded accesses have
infinite backward K-distance and sort before all full nodes. -/
def bucketOf (k : Nat) (n : LRUKNode) : Nat := if n.history.length < k then 0 else 1

theorem cmpLt_iff_key {k : Nat} {a b : LRUKNode}
    (ha : a.history.length ≤ k) (hb : b.history.length ≤ k) :
    cmpLt k a b = true ↔
      (bucketOf k a < bucketOf k b ∨
        (bucketOf k a = bucketOf k b ∧
          historyBack a.history < historyBack b.history)) := by
  have ha0 : bucketOf k a = if a.history.length < k then 0 else 1 := rfl
  have hb0 : bucketOf k b = if b.history.length < k then 0 else 1 := rfl
  rw [cmpLt]
  by_cases c1 : a.history.length < k <;> by_cases c2 : b.history.length < k
  · rw [if_pos c1] at ha0
    rw [if_pos c2] at hb0
    rw [if_neg (by omega), if_neg (by omega)]
    simp only [decide_eq_true_eq]
    omega
  · rw [if_pos c1] at ha0
    rw [if_neg c2] at hb0
    rw [if_neg (by omega), if_pos (by omega)]
    exact iff_of_true rfl (by omega)
  · rw [if_neg c1] at ha0
    rw [if_pos c2] at hb0
    rw [if_pos (by omega)]
    exact iff_of_false (by simp) (by omega)
  · rw [if_neg c1] at ha0
    rw [if_neg c2] at hb0
    rw [if_neg (by omega), if_neg (by omega)]
    simp only [decide_eq_true_eq]
    omega

theorem findNode_eq_none_of_not_mem {ns : List LRUKNode} {fid : Nat}
    (h : ∀ n ∈ ns, n.fid ≠ fid) : findNode ns fid = none := by
  induction ns with
  | nil => rfl
  | cons hd tl ih =>
      simp only [findNode, if_neg (h hd (List.mem_cons_self _ _))]
      exact ih fun n hn => h n (List.mem_cons_of_mem _ hn)

theorem findNode_eraseNode_self {ns : List LRUKNode} {fid : Nat}
    (hnodup : (ns.map (fun n => n.fid)).Nodup) :
    findNode (eraseNode ns fid) fid = none := by
  induction ns with
  | nil => rfl
  | cons hd tl ih =>
      rw [List.map_cons, List.nodup_cons] at hnodup
      by_cases hc : hd.fid = fid
      · simp only [eraseNode, if_pos hc]
        refine findNode_eq_none_of_not_mem fun n hn heq => ?_
        exact hnodup.1 (by rw [← hc, ← heq] at *; exact List.mem_map.2 ⟨n, hn, heq ▸ rfl⟩)
      · simp only [eraseNode, if_neg hc, findNode, if_neg hc]
        exact ih hnodup.2

/-- C4: whenever at least one evictable node exists, `Evict` succeeds and
selects the evictable node with the greatest backward K-distance: any node
with fewer than K recorded accesses is chosen before every node with
exactly K accesses, and within each of the two groups the node with the
smallest oldest retained timestamp wins; the chosen node is removed from
the node table (hence from the derived ordered structure) and the
evictable size drops by one; `Evict` fails exactly when no evictable node
exists.  Hypotheses: every evictable node has a nonempty history of at
most K timestamps (as RecordAccess guarantees), evictable nodes have
pairwise distinct oldest timestamps (the real comparator is on distinct
global timestamps), and frame ids are unique in the table. -/
theorem evict_spec (rep : LRUKReplacer)
    (hlen : ∀ n ∈ rep.nodeStore, n.isEvictable = true →
      n.history ≠ [] ∧ n.history.length ≤ rep.k)
    (hdist : ∀ a ∈ rep.nodeStore, ∀ b ∈ rep.nodeStore,
      a.isEvictable = true → b.isEvictable = true → a ≠ b →
      historyBack a.history ≠ historyBack b.history)
    (hnodup : (rep.nodeStore.map (fun n => n.fid)).Nodup) :
    ((rep.Evict).1 = none ↔ ∀ n ∈ rep.nodeStore, n.isEvictable = false) ∧
    (∀ fid rep2, rep.Evict = (some fid, rep2) →
      ∃ c, c ∈ rep.nodeStore ∧ c.fid = fid ∧ c.isEvictable = true ∧
        (∀ r, r ∈ rep.nodeStore → r.isEvictable = true → r ≠ c →
          (c.history.length < rep.k ∧ r.history.length = rep.k) ∨
          ((c.history.length < rep.k ↔ r.history.length < rep.k) ∧
            historyBack c.history < historyBack r.history)) ∧
        rep2.nodeStore = eraseNode rep.nodeStore fid ∧
        findNode rep2.nodeStore fid = none ∧
        rep2.Size = rep.Size - 1) := by
  cases hfil : rep.nodeStore.filter (fun n => n.isEvictable) with
  | nil =>
      have hEvict0 : rep.Evict = (none, rep) := by
        simp only [LRUKReplacer.Evict, hfil]
      have hempty : ∀ n ∈ rep.nodeStore, n.isEvictable = false := by
        intro n hn
        by_cases hb : n.isEvictable = true
        · exfalso
          have hmem : n ∈ rep.nodeStore.filter (fun n => n.isEvictable) :=
            List.mem_filter.2 ⟨hn, hb⟩
          rw [hfil] at hmem
          simp at hmem
        · cases hbv : n.isEvictable
          · rfl
          · exact absurd hbv hb
      constructor
      · rw [hEvict0]
        exact iff_of_true rfl hempty
      · intro fid rep2 heq
        rw [hEvict0] at heq
        simp at heq
  | cons n rest =>
      have hEvict : rep.Evict =
          (some ((rest.foldl (fun best x => if cmpLt rep.k x best then x else best) n).fid),
            { rep with
              nodeStore :=
                eraseNode rep.nodeStore
                  ((rest.foldl (fun best x => if cmpLt rep.k x best then x else best) n).fid),
              evictableSize := rep.evictableSize - 1 }) := by
        simp only [LRUKReplacer.Evict, hfil]
      have hmmem : rest.foldl (fun best x => if cmpLt rep.k x best then x else best) n
          ∈ n :: rest := foldl_min_mem _ rest n
      have hmemf : ∀ a, a ∈ n :: rest → a ∈ rep.nodeStore ∧ a.isEvictable = true := by
        intro a ha
        rw [← hfil] at ha
        obtain ⟨h1, h2⟩ := List.mem_filter.1 ha
        exact ⟨h1, by simpa using h2⟩
      have hfacts : ∀ a, a ∈ n :: rest → a.history.length ≤ rep.k := fun a ha =>
        (hlen a (hmemf a ha).1 (hmemf a ha).2).2
      constructor
      · rw [hEvict]
        refine iff_of_false (by simp) ?_
        intro hall
        have hc := hall _ (hmemf _ hmmem).1
        rw [(hmemf _ hmmem).2] at hc
        simp at hc
      · intro fid rep2 heq
        rw [hEvict] at heq
        injection heq with h1 h2
        injection h1 with h1
        subst h1
        subst h2
        have htrans : ∀ a b c, a ∈ n :: rest → b ∈ n :: rest → c ∈ n :: rest →
            cmpLt rep.k a b = true → cmpLt rep.k b c = true → cmpLt rep.k a c = true := by
          intro a b c ha hb hc h1 h2
          rw [cmpLt_iff_key (hfacts a ha) (hfacts b hb)] at h1
          rw [cmpLt_iff_key (hfacts b hb) (hfacts c hc)] at h2
          rw [cmpLt_iff_key (hfacts a ha) (hfacts c hc)]
          omega
        have hconn : ∀ a b, a ∈ n :: rest → b ∈ n :: rest → a ≠ b →
            cmpLt rep.k a b = true ∨ cmpLt rep.k b a = true := by
          intro a b ha hb hne
          rw [cmpLt_iff_key (hfacts a ha) (hfacts b hb),
            cmpLt_iff_key (hfacts b hb) (hfacts a ha)]
          have hback : historyBack a.history ≠ historyBack b.history :=
            hdist a (hmemf a ha).1 b (hmemf b hb).1 (hmemf a ha).2 (hmemf b hb).2 hne
          omega
        have hleast := foldl_min_least (cmpLt rep.k) rest n htrans hconn
        refine ⟨rest.foldl (fun best x => if cmpLt rep.k x best then x else best) n,
          (hmemf _ hmmem).1, rfl, (hmemf _ hmmem).2, ?_, rfl, ?_, rfl⟩
        · intro r hr hrev hrne
          have hrf : r ∈ n :: rest := by
            rw [← hfil]
            exact List.mem_filter.2 ⟨hr, by simp [hrev]⟩
          rcases hleast r hrf with h | h
          · exact absurd h hrne
          · have hmk := hfacts _ hmmem
            have hrk := hfacts r hrf
            have hm0 : bucketOf rep.k
                (rest.foldl (fun best x => if cmpLt rep.k x best then x else best) n) =
                if (rest.foldl (fun best x => if cmpLt rep.k x best then x else best)
                  n).history.length < rep.k then 0 else 1 := rfl
            have hr0 : bucketOf rep.k r =
                if r.history.length < rep.k then 0 else 1 := rfl
            rw [cmpLt_iff_key hmk hrk] at h
            by_cases c1 : (rest.foldl (fun best x => if cmpLt rep.k x best then x else best)
                n).history.length < rep.k <;> by_cases c2 : r.history.length < rep.k
            · rw [if_pos c1] at hm0
              rw [if_pos c2] at hr0
              omega
            · rw [if_pos c1] at hm0
              rw [if_neg c2] at hr0
              omega
            · rw [if_neg c1] at hm0
              rw [if_pos c2] at hr0
              omega
            · rw [if_neg c1] at hm0
              rw [if_neg c2] at hr0
              omega
        · exact findNode_eraseNode_self hnodup

/-- A concrete replacer with K = 2 and three evictable frames: frame 0 with
history [4, 1], frame 1 with history [5, 2], frame 2 with the single
access [3]. -/
def evictWitnessRep : LRUKReplacer :=
  ⟨[⟨0, [4, 1], true⟩, ⟨1, [5, 2], true⟩, ⟨2, [3], true⟩], 5, 7, 2, 3⟩

theorem evict_spec_witness :
    (evictWitnessRep.nodeStore.map (fun n => n.fid)).Nodup ∧
      ((evictWitnessRep.Evict).1 = none ↔
        ∀ n ∈ evictWitnessRep.nodeStore, n.isEvictable = false) :=
  ⟨by decide,
    (evict_spec evictWitnessRep (by decide) (by decide) (by decide)).1⟩

/-! ### The buffer pool manager (`src/buffer/buffer_pool_manager.cpp`)

`pages_` is the frame array, embedded as a list of length `poolSize`;
`page_table_` is an unordered map from page id to frame id, embedded as an
association list; `free_list_` is a `std::list` with its head at the
front, so `push_front` is cons, `back` is the last element and `pop_back`
drops it.  The disk scheduler is embedded as the disk contents (page id to
page data) plus a log of the scheduled requests; `future.get()` makes every
request synchronous, so each schedule call takes effect immediately.  A
replacer `throw` propagates as `Except.error`. -/

inductive DiskOp : Type where
  | read : Int → DiskOp
  | write : Int → DiskOp
deriving DecidableEq, Repr

/-- Modelled from the spec: the `Page` fields used by the buffer pool
manager (`page.h` is not among the sources), with page data abstracted to
a single value; `ResetMemory` zeroes it.  A default-constructed page is
invalid, unpinned, clean and zeroed. -/
structure Page : Type where
  pageId : Int
  pinCount : Nat
  isDirty : Bool
  data : Nat
deriving DecidableEq, Repr

def Page.empty : Page := ⟨-1, 0, false, 0⟩

def findI {β : Type} : List (Int × β) → Int → Option β
  | [], _ => none
  | (a, b) :: t, key => if a = key then some b else findI t key

def eraseI {β : Type} : List (Int × β) → Int → List (Int × β)
  | [], _ => []
  | (a, b) :: t, key => if a = key then t else (a, b) :: eraseI t key

/-- Insert-or-assign, for the disk contents. -/
def setI {β : Type} : List (Int × β) → Int → β → List (Int × β)
  | [], key, v => [(key, v)]
  | (a, b) :: t, key, v => if a = key then (key, v) :: t else (a, b) :: setI t key v

/-- `unordered_map::emplace`: inserts only when the key is absent. -/
def emplaceI {β : Type} (l : List (Int × β)) (key : Int) (v : β) : List (Int × β) :=
  match findI l key with
  | some _ => l
  | none => l ++ [(key, v)]

structure BufferPoolManager : Type where
  poolSize : Nat
  pages : List Page
  pageTable : List (Int × Nat)
  freeList : List Nat
  replacer : LRUKReplacer
  nextPageId : Int
  disk : List (Int × Nat)
  diskLog : List DiskOp
deriving DecidableEq, Repr

/-- The constructor: every page default-constructed, every frame id in the
free list in increasing order, `next_page_id_` starting at 0. -/
def initBPM (poolSize k : Nat) : BufferPoolManager :=
  ⟨poolSize, List.replicate poolSize Page.empty, [], List.range poolSize,
    LRUKReplacer.init poolSize k, 0, [], []⟩

/-- `BufferPoolManager::FlushFrame`: only a dirty frame is written; the
write is scheduled (and, by `future.get()`, completed) and the dirty flag
cleared. -/
def BufferPoolManager.FlushFrame (bpm : BufferPoolManager) (fid : Nat) :
    BufferPoolManager :=
  let page := bpm.pages.getD fid Page.empty
  if page.isDirty then
    { bpm with
      pages := bpm.pages.set fid { page with isDirty := false },
      disk := setI bpm.disk page.pageId page.data,
      diskLog := bpm.diskLog ++ [DiskOp.write page.pageId] }
  else bpm

/-- The tail of `BufferPoolManager::NewPage` after a frame is obtained:
allocate the page id, emplace it, set the page header (pin count 1,
memory reset), record the access and pin the frame in the replacer. -/
def newPageTail (bpm : BufferPoolManager) (fid : Nat) :
    Except RepError (Option (Int × Nat) × BufferPoolManager) :=
  let pid := bpm.nextPageId
  let bpm1 := { bpm with
    nextPageId := bpm.nextPageId + 1,
    pageTable := emplaceI bpm.pageTable pid fid }
  let page := bpm1.pages.getD fid Page.empty
  let bpm2 := { bpm1 with
    pages := bpm1.pages.set fid { page with pageId := pid, pinCount := 1, data := 0 } }
  match bpm2.replacer.RecordAccess fid with
  | (some e, _) => .error e
  | (none, rep1) =>
      match rep1.SetEvictable fid false with
      | (some e, _) => .error e
      | (none, rep2) => .ok (some (pid, fid), { bpm2 with replacer := rep2 })

/-- `BufferPoolManager::NewPage`: `some (pid, fid)` stands for the returned
page pointer (frame `fid`) together with the allocated `*page_id`; `none`
is the `nullptr` return. -/
def BufferPoolManager.NewPage (bpm : BufferPoolManager) :
    Except RepError (Option (Int × Nat) × BufferPoolManager) :=
  if bpm.freeList.isEmpty then
    match bpm.replacer.Evict with
    | (none, _) => .ok (none, bpm)
    | (some fid, rep1) =>
        let victim := bpm.pages.getD fid Page.empty
        let bpm1 := { bpm with
          replacer := rep1,
          pageTable := eraseI bpm.pageTable victim.pageId }
        newPageTail (bpm1.FlushFrame fid) fid
  else
    let fid := bpm.freeList.getLastD 0
    newPageTail { bpm with freeList := bpm.freeList.dropLast } fid

/-- The tail of the `BufferPoolManager::FetchPage` miss path after a frame
is obtained: emplace the mapping, record the access and pin the frame in
the replacer, set the page header — the pin count is set to 0 — reset the
memory and read the page from disk synchronously. -/
def fetchMissTail (bpm : BufferPoolManager) (pid : Int) (fid : Nat) :
    Except RepError (Option Nat × BufferPoolManager) :=
  let bpm1 := { bpm with pageTable := emplaceI bpm.pageTable pid fid }
  match bpm1.replacer.RecordAccess fid with
  | (some e, _) => .error e
  | (none, rep1) =>
      match rep1.SetEvictable fid false with
      | (some e, _) => .error e
      | (none, rep2) =>
          let page := bpm1.pages.getD fid Page.empty
          .ok (some fid,
            { bpm1 with
              replacer := rep2,
              pages := bpm1.pages.set fid
                { page with pageId := pid, pinCount := 0,
                            data := (findI bpm1.disk pid).getD 0 },
              diskLog := bpm1.diskLog ++ [DiskOp.read pid] })

/-- `BufferPoolManager::FetchPage`: `some fid` stands for the returned page
pointer (frame `fid`); `none` is the `nullptr` return. -/
def BufferPoolManager.FetchPage (bpm : BufferPoolManager) (pid : Int) :
    Except RepError (Option Nat × BufferPoolManager) :=
  match findI bpm.pageTable pid with
  | some fid =>
      match bpm.replacer.RecordAccess fid with
      | (some e, _) => .error e
      | (none, rep1) =>
          match rep1.SetEvictable fid false with
          | (some e, _) => .error e
          | (none, rep2) =>
              let page := bpm.pages.getD fid Page.empty
              .ok (some fid,
                { bpm with
                  replacer := rep2,
                  pages := bpm.pages.set fid { page with pinCount := page.pinCount + 1 } })
  | none =>
      if bpm.freeList.isEmpty then
        match bpm.replacer.Evict with
        | (none, _) => .ok (none, bpm)
        | (some fid, rep1) =>
            let victim := bpm.pages.getD fid Page.empty
            let bpm1 := { bpm with
              replacer := rep1,
              pageTable := eraseI bpm.pageTable victim.pageId }
            fetchMissTail (bpm1.FlushFrame fid) pid fid
      else
        let fid := bpm.freeList.getLastD 0
        fetchMissTail { bpm with freeList := bpm.freeList.dropLast } pid fid

/-- `BufferPoolManager::UnpinPage`. -/
def BufferPoolManager.UnpinPage (bpm : BufferPoolManager) (pid : Int)
    (isDirty : Bool) : Except RepError (Bool × BufferPoolManager) :=
  match findI bpm.pageTable pid with
  | none => .ok (false, bpm)
  | some fid =>
      let page := bpm.pages.getD fid Page.empty
      if page.pinCount = 0 then .ok (false, bpm)
      else
        let page1 := { page with pinCount := page.pinCount - 1 }
        let bpm1 := { bpm with pages := bpm.pages.set fid page1 }
        match (if page1.pinCount = 0 then bpm1.replacer.SetEvictable fid true
               else (none, bpm1.replacer)) with
        | (some e, _) => .error e
        | (none, rep1) =>
            let bpm2 := { bpm1 with replacer := rep1 }
            if isDirty then
              let page2 := bpm2.pages.getD fid Page.empty
              .ok (true, { bpm2 with
                pages := bpm2.pages.set fid { page2 with isDirty := true } })
            else .ok (true, bpm2)

/-- `BufferPoolManager::FlushPage`. -/
def BufferPoolManager.FlushPage (bpm : BufferPoolManager) (pid : Int) :
    Bool × BufferPoolManager :=
  match findI bpm.pageTable pid with
  | none => (false, bpm)
  | some fid => (true, bpm.FlushFrame fid)

/-- `BufferPoolManager::DeletePage`.  The page table entry is erased as
soon as the page is found, before the pin count is checked; `DeallocatePage`
is a no-op. -/
def BufferPoolManager.DeletePage (bpm : BufferPoolManager) (pid : Int) :
    Except RepError (Bool × BufferPoolManager) :=
  match findI bpm.pageTable pid with
  | none => .ok (true, bpm)
  | some fid =>
      let bpm1 := { bpm with pageTable := eraseI bpm.pageTable pid }
      let page := bpm1.pages.getD fid Page.empty
      if page.pinCount > 0 then .ok (false, bpm1)
      else
        match bpm1.replacer.Remove fid with
        | (some e, _) => .error e
        | (none, rep1) =>
            let bpm2 := { bpm1 with replacer := rep1,
                                    freeList := fid :: bpm1.freeList }
            let bpm3 := bpm2.FlushFrame fid
            let page3 := bpm3.pages.getD fid Page.empty
            .ok (true, { bpm3 with
              pages := bpm3.pages.set fid { page3 with pageId := -1, data := 0 } })

/-! ### The buffer pool manager claims -/

/-- The pool state after `NewPage` on a fresh one-frame pool with K = 2:
page 0 resident in frame 0, pin count 1, clean page table `[(0, 0)]`,
empty free list. -/
def bpmNew : BufferPoolManager :=
  match (initBPM 1 2).NewPage with
  | .ok (_, b) => b
  | .error _ => initBPM 1 2

/-- C1: the claim is right and the code is wrong.  On the miss path
`FetchPage` sets the frame's pin count to 0 (line 110 of
`buffer_pool_manager.cpp`), not to a value ≥ 1: fetching absent page 5
into a fresh two-frame pool returns the page in frame 1 with pin count 0,
although the frame is indeed non-evictable in the replacer. -/
theorem fetchPage_miss_pin_zero :
    ((initBPM 2 2).FetchPage 5).map
        (fun r => (r.1, (r.2.pages.getD 1 Page.empty).pinCount,
          (r.2.pages.getD 1 Page.empty).pageId,
          (findNode r.2.replacer.nodeStore 1).map (fun n => n.isEvictable))) =
      .ok (some 1, 0, 5, some false) := rfl

/-- C2: the claim is right and the code is wrong.  `DeletePage` erases the
page table entry as soon as the page is found and only then checks the pin
count (lines 161-169 of `buffer_pool_manager.cpp`): deleting the pinned
page 0 right after `NewPage` returns false, yet the page table has lost
the entry `(0, 0)` — the failure is not atomic. -/
theorem deletePage_not_atomic :
    bpmNew.pageTable = [(0, 0)] ∧
    (bpmNew.DeletePage 0).map (fun r => (r.1, r.2.pageTable)) = .ok (false, []) :=
  ⟨rfl, rfl⟩

/-- C3: the claim is right and the code is wrong.  After `NewPage` the
capacity invariant `|free_list| + |page_table| = poolSize` holds, but the
failed `DeletePage` of the pinned page erases the page table entry without
returning the frame to the free list, leaving `0 + 0 ≠ 1` at the next
quiescent point. -/
theorem bpm_capacity_invariant_violated :
    bpmNew.freeList.length + bpmNew.pageTable.length = bpmNew.poolSize ∧
    (bpmNew.DeletePage 0).map
        (fun r => (r.1, r.2.freeList.length + r.2.pageTable.length, r.2.poolSize)) =
      .ok (false, 0, 1) :=
  ⟨rfl, rfl⟩

/-- C5 counterexample: the claim that `FlushPage` writes to disk
regardless of the dirty flag is false: flushing the clean resident page 0 after `NewPage` returns true
but leaves the whole pool state — the disk request log included —
unchanged, because `FlushFrame` writes only when the dirty flag is set. -/
theorem flushPage_no_write_counterexample :
    findI bpmNew.pageTable 0 = some 0 ∧
    (bpmNew.pages.getD 0 Page.empty).isDirty = false ∧
    bpmNew.FlushPage 0 = (true, bpmNew) :=
  ⟨rfl, rfl, rfl⟩

/-- C5 (amended): for a non-resident page id `FlushPage` returns false and
changes nothing; for a resident page id it returns true without examining
the pin count, and the frame is written to disk synchronously — with the
dirty flag cleared — only when the dirty flag was set; a clean frame is
not written and the state is unchanged. -/
theorem flushPage_spec (bpm : BufferPoolManager) (pid : Int) :
    (findI bpm.pageTable pid = none → bpm.FlushPage pid = (false, bpm)) ∧
    (∀ fid, findI bpm.pageTable pid = some fid →
      bpm.FlushPage pid =
        (true,
          if (bpm.pages.getD fid Page.empty).isDirty then
            { bpm with
              pages := bpm.pages.set fid
                { bpm.pages.getD fid Page.empty with isDirty := false },
              disk := setI bpm.disk (bpm.pages.getD fid Page.empty).pageId
                (bpm.pages.getD fid Page.empty).data,
              diskLog := bpm.diskLog ++
                [DiskOp.write (bpm.pages.getD fid Page.empty).pageId] }
          else bpm)) := by
  constructor
  · intro h
    simp only [BufferPoolManager.FlushPage, h]
  · intro fid h
    simp only [BufferPoolManager.FlushPage, h, BufferPoolManager.FlushFrame]

theorem flushPage_spec_witness :
    (initBPM 1 2).FlushPage 3 = (false, initBPM 1 2) ∧
    bpmNew.FlushPage 0 = (true, bpmNew) := by
  refine ⟨(flushPage_spec (initBPM 1 2) 3).1 rfl, ?_⟩
  have h := (flushPage_spec bpmNew 0).2 0 rfl
  rw [h]
  rfl

theorem getD_set_self : ∀ (l : List Page) (i : Nat) (p : Page), i < l.length →
    (l.set i p).getD i Page.empty = p
  | [], _, _, h => absurd h (by simp)
  | _ :: _, 0, _, _ => rfl
  | _ :: t, i + 1, p, h => getD_set_self t i p (by simpa using h)

/-- C10: on the hit path (the page id is resident in frame `fid` and the
replacer calls return normally), `FetchPage` returns frame `fid`, the
frame's pin count grows by exactly one, the frame's page id, dirty flag
and data are unchanged, the page table, free list, disk contents and disk
request log are unchanged, and the only other change is the replacer
state. -/
theorem fetchPage_hit_spec (bpm : BufferPoolManager) (pid : Int) (fid : Nat)
    (rep1 rep2 : LRUKReplacer)
    (hft : findI bpm.pageTable pid = some fid)
    (hra : bpm.replacer.RecordAccess fid = (none, rep1))
    (hse : rep1.SetEvictable fid false = (none, rep2))
    (hfid : fid < bpm.pages.length) :
    bpm.FetchPage pid =
      .ok (some fid,
        { bpm with
          replacer := rep2,
          pages := bpm.pages.set fid
            { bpm.pages.getD fid Page.empty with
              pinCount := (bpm.pages.getD fid Page.empty).pinCount + 1 } }) ∧
    (∀ bpm2, bpm.FetchPage pid = .ok (some fid, bpm2) →
      bpm2.pageTable = bpm.pageTable ∧ bpm2.freeList = bpm.freeList ∧
      bpm2.diskLog = bpm.diskLog ∧ bpm2.disk = bpm.disk ∧
      (bpm2.pages.getD fid Page.empty).pageId =
        (bpm.pages.getD fid Page.empty).pageId ∧
      (bpm2.pages.getD fid Page.empty).isDirty =
        (bpm.pages.getD fid Page.empty).isDirty ∧
      (bpm2.pages.getD fid Page.empty).data =
        (bpm.pages.getD fid Page.empty).data ∧
      (bpm2.pages.getD fid Page.empty).pinCount =
        (bpm.pages.getD fid Page.empty).pinCount + 1) := by
  have h1 : bpm.FetchPage pid =
      .ok (some fid,
        { bpm with
          replacer := rep2,
          pages := bpm.pages.set fid
            { bpm.pages.getD fid Page.empty with
              pinCount := (bpm.pages.getD fid Page.empty).pinCount + 1 } }) := by
    simp only [BufferPoolManager.FetchPage, hft, hra, hse]
  refine ⟨h1, ?_⟩
  intro bpm2 heq
  rw [h1] at heq
  injection heq with heq
  injection heq with _ heq
  subst heq
  refine ⟨rfl, rfl, rfl, rfl, ?_, ?_, ?_, ?_⟩ <;>
    rw [show (({ bpm with
        replacer := rep2,
        pages := bpm.pages.set fid
          { bpm.pages.getD fid Page.empty with
            pinCount := (bpm.pages.getD fid Page.empty).pinCount + 1 } } :
        BufferPoolManager).pages.getD fid Page.empty) =
      { bpm.pages.getD fid Page.empty with
        pinCount := (bpm.pages.getD fid Page.empty).pinCount + 1 }
      from getD_set_self bpm.pages fid _ hfid]

theorem fetchPage_hit_spec_witness :
    bpmNew.FetchPage 0 = .ok (some 0,
      { bpmNew with
        replacer := ⟨[⟨0, [2, 1], false⟩], 2, 1, 2, 0⟩,
        pages := bpmNew.pages.set 0
          { bpmNew.pages.getD 0 Page.empty with
            pinCount := (bpmNew.pages.getD 0 Page.empty).pinCount + 1 } }) :=
  (fetchPage_hit_spec bpmNew 0 0 ⟨[⟨0, [2, 1], false⟩], 2, 1, 2, 0⟩
    ⟨[⟨0, [2, 1], false⟩], 2, 1, 2, 0⟩ rfl rfl rfl (by decide)).1

end BusTub
